import Mathlib

/-!
# Habit-Flow: the derivation engine and the log store

A shallow embedding of the logic of `src/src/App.jsx` (loading, the log store, the streak
engine), `src/src/components/Dashboard.jsx` (trend, monthly statistics, mood histogram,
growth score), `src/src/components/HeatmapView.jsx` (heatmap) and
`src/src/components/HabitGrid.jsx` (daily totals).

Conventions of the embedding.

* A date key `"YYYY-MM-DD"` is represented by the number of the calendar day it
  denotes, counted from 1970-01-01 (`dateKey 1970 1 1 = 0`). The engines never
  look inside the string: they parse it (`new Date(key)`), produce it
  (`toISOString().split('T')[0]`, `format(day, 'yyyy-MM-dd')`) and use it as a
  property name.
* A JavaScript time value is an integer number of milliseconds since the epoch.
* A `Date` at local midnight, as date-fns produces it, is represented by the number of
  its local calendar day.
* A JavaScript object is an insertion-ordered list of entries with pairwise
  distinct keys (`Obj`).
* The host's time zone is a parameter (`Zone`): `getDate`/`setDate` work on
  local time, `toISOString` on UTC.
* The clock (`Date.now()`, `new Date()`), `Math.random()`, the answer to `confirm`, the
  content of `localStorage` and `JSON.parse` are parameters. One clock reading serves a
  whole run of the streak engine.
* A JavaScript number is the rational it denotes. The quotient and the product that
  Dashboard.jsx hands to `Math.round` are rounded to the nearest IEEE-754 double
  (`toDouble`, `numDiv`, `numMul`): there the rounding error decides the result. The
  comparisons of the heatmap and the arguments of `Math.floor` are taken exactly.
-/

namespace HabitFlow

/-! ## JavaScript objects -/

/-- A JavaScript object: its own enumerable properties in order, keys distinct. -/
structure Obj (κ : Type) (ν : Type) where
  entries : List (κ × ν)
  nodupKeys : (entries.map Prod.fst).Nodup

namespace Obj

variable {κ ν : Type}

/-- The object literal `{}`. -/
def empty : Obj κ ν := ⟨[], List.nodup_nil⟩

/-- The list `Object.keys(o)`. -/
def keys (o : Obj κ ν) : List κ := o.entries.map Prod.fst

/-- The list `Object.values(o)`. -/
def values (o : Obj κ ν) : List ν := o.entries.map Prod.snd

/-- Property read `o[k]`; `none` stands for `undefined`. -/
def get? [DecidableEq κ] (o : Obj κ ν) (k : κ) : Option ν :=
  (o.entries.find? (fun e => decide (e.1 = k))).map Prod.snd

end Obj

/-! ## Data model -/

/-- Milliseconds in a day, `1000 * 60 * 60 * 24` (App.jsx:110), `86400000` (App.jsx:125). -/
def msPerDay : Int := 1000 * 60 * 60 * 24

/-- A habit identifier (`1`..`5` for the seed habits, `Date.now()` afterwards). -/
abbrev HabitId := Nat

/-- A habit record `{ id, name, color }`. -/
structure Habit where
  id : HabitId
  name : String
  color : String
deriving DecidableEq, Repr

/-- The completions of one day: habit id to boolean. -/
abbrev DayLog := Obj HabitId Bool

/-- The completion log `logs`: date key (the number of its calendar day since 1970-01-01)
to the completions of that day. -/
abbrev Logs := Obj Int DayLog

/-- Truthiness of `logs[date]?.[habit.id]` (App.jsx:96, HabitGrid.jsx:163). -/
def isChecked (logs : Logs) (date : Int) (id : HabitId) : Bool :=
  match logs.get? date with
  | some dayLogs => (dayLogs.get? id).getD false
  | none => false

/-! ## Calendar arithmetic of ECMAScript (ECMA-262, "Date objects") -/

/-- Day number of the first day of year `y` (ECMA-262 `DayFromYear`). -/
def DayFromYear (y : Int) : Int :=
  365 * (y - 1970) + (y - 1969) / 4 - (y - 1901) / 100 + (y - 1601) / 400

/-- Number of days of year `y` (ECMA-262 `DaysInYear`). -/
def DaysInYear (y : Int) : Int :=
  if y % 4 ≠ 0 then 365
  else if y % 100 ≠ 0 then 366
  else if y % 400 ≠ 0 then 365
  else 366

/-- Leap-year flag, `1` in a leap year and `0` otherwise (ECMA-262 `InLeapYear`). -/
def InLeapYear (y : Int) : Int := DaysInYear y - 365

/-- Day within the year on which month `mn` (0 = January) starts. -/
def monthStart (leap : Int) (mn : Int) : Int :=
  if mn = 0 then 0
  else if mn = 1 then 31
  else if mn = 2 then 59 + leap
  else if mn = 3 then 90 + leap
  else if mn = 4 then 120 + leap
  else if mn = 5 then 151 + leap
  else if mn = 6 then 181 + leap
  else if mn = 7 then 212 + leap
  else if mn = 8 then 243 + leap
  else if mn = 9 then 273 + leap
  else if mn = 10 then 304 + leap
  else 334 + leap

/-- Day number of `date` in month `month` (0-based, may overflow) of `year`
(ECMA-262 `MakeDay`). -/
def MakeDay (year month date : Int) : Int :=
  let ym := year + month / 12
  let mn := month % 12
  DayFromYear ym + monthStart (InLeapYear ym) mn + date - 1

/-- The date key written `y-m-d` (month `m` counted from 1). -/
def dateKey (y m d : Int) : Int := MakeDay y (m - 1) d

/-- Time value of `new Date(key)` for a date-only ISO string: UTC midnight of the day. -/
def parseDate (key : Int) : Int := key * msPerDay

/-- Date key `d.toISOString().split('T')[0]` of a time value: its UTC day. -/
def isoDate (t : Int) : Int := t / msPerDay

/-- The host's time zone: `localTime` is ECMA-262 `LocalTime(t)`, `utc` is `UTC(t)`.
`setDate_lt` says that going back one local calendar day moves the time value
back, which holds whenever the zone's offset never jumps by a whole day. -/
structure Zone where
  localTime : Int → Int
  utc : Int → Int
  setDate_lt : ∀ t, utc (localTime t - msPerDay) < t

/-- A zone with a constant offset (in milliseconds) from UTC. -/
def Zone.fixed (offset : Int) : Zone where
  localTime t := t + offset
  utc t := t - offset
  setDate_lt t := by
    simp only [msPerDay]
    omega

/-- Start of daylight-saving time in Berlin in 2024: 2024-03-31T01:00:00Z. -/
def berlinSpring2024 : Int := dateKey 2024 3 31 * msPerDay + 3600000

/-- Europe/Berlin between October 2023 and October 2024: UTC+1 until
2024-03-31T01:00Z, UTC+2 from then on. Local times of the skipped hour
02:00-03:00 are read with the offset in force before the change. -/
def Zone.berlin2024 : Zone where
  localTime t := if t < berlinSpring2024 then t + 3600000 else t + 7200000
  utc t := if t < berlinSpring2024 + 7200000 then t - 3600000 else t - 7200000
  setDate_lt t := by
    simp only [msPerDay]
    split_ifs <;> omega

/-- Effect of `pointer.setDate(pointer.getDate() - 1)` on the time value:
`setDate` rebuilds the local time from the same local month with the day of
the month lowered by one and the same time within the day, that is the local
time minus one day, and converts it back to UTC. -/
def setDateBack (z : Zone) (t : Int) : Int := z.utc (z.localTime t - msPerDay)

/-! ## Streak engine (App.jsx:91-175) -/

/-- Current and best streak of one habit, `{ current, best }`. -/
structure Streak where
  current : Nat
  best : Nat
deriving DecidableEq, Repr

/-- Lines 95-97 of App.jsx: the keys of `logs` on which the habit is checked, sorted by
`(a, b) => new Date(a) - new Date(b)`. -/
def completedDates (logs : Logs) (id : HabitId) : List Int :=
  (logs.keys.filter (fun date => isChecked logs date id)).insertionSort
    (fun a b => parseDate a - parseDate b ≤ 0)

/-- The loop of App.jsx:105-120 over the remaining dates. `prev` is
`completedDates[i - 1]` (`none` at `i = 0`); the quotient `diff` is exact because
both time values are UTC midnights. -/
def bestScan : Option Int → Nat → Nat → List Int → Nat
  | _, _, bestStreak, [] => bestStreak
  | prev, tempStreak, bestStreak, date :: rest =>
    let currentDate := parseDate date
    let tempStreak1 :=
      match prev with
      | some p =>
        let diff := (currentDate - parseDate p) / msPerDay
        if diff = 1 then tempStreak + 1 else 1
      | none => 1
    let bestStreak1 := if tempStreak1 > bestStreak then tempStreak1 else bestStreak
    bestScan (some date) tempStreak1 bestStreak1 rest

/-- Best streak of a habit (App.jsx:95-120). -/
def bestStreak (logs : Logs) (id : HabitId) : Nat :=
  bestScan none 0 0 (completedDates logs id)

/-- The `while (true)` loop of App.jsx:161-169, run for at most `steps` iterations. The
source loop has no bound; `currentStreak` runs it for `walkBound` iterations, which it
never exhausts (`walkBack_fuel`, `walkBack_loop`). -/
def walkBack (z : Zone) (logs : Logs) (id : HabitId) : Nat → Int → Nat → Nat
  | 0, _, currentStreak => currentStreak
  | steps + 1, pointer, currentStreak =>
    if isChecked logs (isoDate pointer) id then
      walkBack z logs id steps (setDateBack z pointer) (currentStreak + 1)
    else currentStreak

/-- A time value at or before the UTC midnight of every key of the log. -/
def horizon (logs : Logs) : Int := parseDate (logs.keys.foldr min 0)

/-- Number of iterations the loop of App.jsx:161-169 cannot exceed when started at
`pointer`: each iteration lowers the time value and the loop stops below the horizon. -/
def walkBound (logs : Logs) (pointer : Int) : Nat := (pointer - horizon logs + 1).toNat + 1

/-- Current streak of a habit at the clock reading `now` (App.jsx:122-170). -/
def currentStreak (z : Zone) (now : Int) (logs : Logs) (id : HabitId) : Nat :=
  let todayKey := isoDate now
  let yesterdayKey := isoDate (now - 86400000)
  if !isChecked logs todayKey id && !isChecked logs yesterdayKey id then 0
  else
    let todayStr := isoDate now
    let pointer := if !isChecked logs todayStr id then setDateBack z now else now
    walkBack z logs id (walkBound logs pointer) pointer 0

/-- The entry `data[habit.id]` computed for one habit (body of the `forEach`, App.jsx:93-173). -/
def streakEntry (z : Zone) (now : Int) (logs : Logs) (habit : Habit) : Streak :=
  { current := currentStreak z now logs habit.id, best := bestStreak logs habit.id }

/-- The object `streakData`: one entry per habit of `safeHabits`, keyed by its id. -/
def streakData (z : Zone) (now : Int) (logs : Logs) (safeHabits : List Habit) :
    List (HabitId × Streak) :=
  safeHabits.map (fun habit => (habit.id, streakEntry z now logs habit))

/-! ## Calendar helpers of date-fns

A `Date` at local midnight is represented by the number of its local calendar day, so
that `format(day, 'yyyy-MM-dd')` is the identity. -/

/-- The local calendar fields of a `Date` read by `startOfMonth` and `endOfMonth`:
`getFullYear()` and `getMonth()` (0 = January). -/
structure LocalDate where
  fullYear : Int
  month : Fin 12

/-- The day of `startOfMonth(date)`: `setDate(1)`, `setHours(0, 0, 0, 0)`. -/
def startOfMonth (date : LocalDate) : Int := MakeDay date.fullYear (date.month.val : Int) 1

/-- The day of `endOfMonth(date)`: `setFullYear(getFullYear(), getMonth() + 1, 0)`,
`setHours(23, 59, 59, 999)`. -/
def endOfMonth (date : LocalDate) : Int := MakeDay date.fullYear ((date.month.val : Int) + 1) 0

/-- The days of `eachDayOfInterval({ start, end })`: it pushes the current day and steps
to the next one while the current day does not pass the end. -/
def eachDayOfInterval (start finish : Int) : List Int :=
  (List.range (finish + 1 - start).toNat).map (fun (i : Nat) => start + (i : Int))

/-! ## Numbers of ECMAScript (ECMA-262, "The Number type")

A finite Number is a double: `m * 2 ^ (e - 52)` with a significand `m` of 53 bits. The
result of `/` and `*` is the exact result rounded to the nearest double, a tie going to the
even significand. The exponent is not bounded here: every quotient and product of the
dashboard lies far inside the range of normal doubles, its operands being counts below
`2 ^ 53`. -/

/-- The nearest integer, a tie going to the even neighbour. -/
def roundHalfEven (x : ℚ) : Int :=
  let f := ⌊x⌋
  if x - f < 1 / 2 then f
  else if 1 / 2 < x - f then f + 1
  else if f % 2 = 0 then f else f + 1

/-- The double nearest to `x`: with `2 ^ e ≤ |x| < 2 ^ (e + 1)`, the multiple of
`2 ^ (e - 52)` nearest to `x`, a tie going to the even multiple. -/
def toDouble (x : ℚ) : ℚ :=
  if x = 0 then 0
  else
    let e := Int.log 2 |x|
    let ulp : ℚ := 2 ^ (e - 52)
    (roundHalfEven (x / ulp) : ℚ) * ulp

/-- The Number `a / b`. -/
def numDiv (a b : ℚ) : ℚ := toDouble (a / b)

/-- The Number `a * b`. -/
def numMul (a b : ℚ) : ℚ := toDouble (a * b)

/-- `Math.round`: the nearest integer, a tie going up. -/
def mathRound (x : ℚ) : Int := ⌊x + 1 / 2⌋

/-! ## Aggregation engine (Dashboard.jsx) -/

namespace Dashboard

/-- Lines 16-17 and 36-37 of Dashboard.jsx: `dayLogs = logs[dateKey] || {}` and
`Object.values(dayLogs).filter(Boolean).length`. -/
def completedCount (logs : Logs) (dateKey : Int) : Nat :=
  let dayLogs := (logs.get? dateKey).getD Obj.empty
  (dayLogs.values.filter (fun v => v)).length

/-- One entry of `trendData` (the display label `date` is left out). -/
structure TrendPoint where
  fullDate : Int
  count : Nat
  percentage : Int
deriving DecidableEq, Repr

/-- The series `trendData` (Dashboard.jsx:9-26). -/
def trendData (logs : Logs) (habits : List Habit) (currentDate : LocalDate) : List TrendPoint :=
  let start := startOfMonth currentDate
  let finish := endOfMonth currentDate
  let days := eachDayOfInterval start finish
  days.map (fun day =>
    let dateKey := day
    let completedCount := completedCount logs dateKey
    let percentage : Int :=
      if habits.length > 0 then
        mathRound (numMul (numDiv (completedCount : ℚ) (habits.length : ℚ)) 100)
      else 0
    { fullDate := dateKey, count := completedCount, percentage := percentage })

/-- The record `{ totalCompleted, totalPossible, percentage }`. -/
structure CompletionStats where
  totalCompleted : Nat
  totalPossible : Nat
  percentage : Int
deriving DecidableEq, Repr

/-- The record `completionStats` (Dashboard.jsx:29-42). -/
def completionStats (logs : Logs) (habits : List Habit) (currentDate : LocalDate) :
    CompletionStats :=
  let daysInMonth := eachDayOfInterval (startOfMonth currentDate) (endOfMonth currentDate)
  let totalPossible := daysInMonth.length * habits.length
  let totalCompleted :=
    daysInMonth.foldl (fun totalCompleted day => totalCompleted + completedCount logs day) 0
  let percentage : Int :=
    if totalPossible = 0 then 0
    else mathRound (numMul (numDiv (totalCompleted : ℚ) (totalPossible : ℚ)) 100)
  { totalCompleted := totalCompleted, totalPossible := totalPossible, percentage := percentage }

end Dashboard

/-! ## Heatmap engine (HeatmapView.jsx) -/

namespace HeatmapView

/-- Lines 19-20 of HeatmapView.jsx: `dayLogs = logs[dateKey] || {}` and
`habits.reduce((acc, h) => acc + (dayLogs[h.id] ? 1 : 0), 0)`. -/
def completedCount (logs : Logs) (habits : List Habit) (dateKey : Int) : Nat :=
  let dayLogs := (logs.get? dateKey).getD Obj.empty
  habits.foldl (fun acc h => acc + (if (dayLogs.get? h.id).getD false then 1 else 0)) 0

/-- Lines 24-31 of HeatmapView.jsx: the intensity level of a day. -/
def level (completedCount totalHabits : Nat) : Nat :=
  if totalHabits > 0 ∧ completedCount > 0 then
    let percentage : ℚ := ((completedCount : ℚ) / (totalHabits : ℚ)) * 100
    if percentage ≤ 25 then 1
    else if percentage ≤ 50 then 2
    else if percentage ≤ 75 then 3
    else 4
  else 0

/-- One value of `intensityMap`, `{ level, count }` (the `date` object is left out). -/
structure Cell where
  level : Nat
  count : Nat
deriving DecidableEq, Repr

/-- The value `intensityMap[dateKey]` computed for one day (HeatmapView.jsx:17-33). -/
def intensity (logs : Logs) (habits : List Habit) (dateKey : Int) : Cell :=
  let completedCount := completedCount logs habits dateKey
  let totalHabits := habits.length
  { level := level completedCount totalHabits, count := completedCount }

end HeatmapView

/-! ## Daily totals of the grid (HabitGrid.jsx) -/

namespace HabitGrid

/-- Lines 41-43 of HabitGrid.jsx:
`habits.reduce((acc, habit) => acc + (logs[dateKey]?.[habit.id] ? 1 : 0), 0)`. -/
def totalCompleted (logs : Logs) (habits : List Habit) (dateKey : Int) : Nat :=
  habits.foldl (fun acc habit => acc + (if isChecked logs dateKey habit.id then 1 else 0)) 0

end HabitGrid

/-! ## Log store (App.jsx:25-86) -/

/-- Entries of `{ ...o, [k]: v }`: an existing key keeps its place and takes the new value,
a new key is added at the end. -/
def Obj.setEntries {κ ν : Type} [DecidableEq κ] (k : κ) (v : ν) : List (κ × ν) → List (κ × ν)
  | [] => [(k, v)]
  | e :: es => if e.1 = k then (k, v) :: es else e :: Obj.setEntries k v es

/-- The object `{ ...o, [k]: v }`. -/
def Obj.set {κ ν : Type} [DecidableEq κ] (o : Obj κ ν) (k : κ) (v : ν) : Obj κ ν where
  entries := Obj.setEntries k v o.entries
  nodupKeys := by
    have key : ∀ l : List (κ × ν), (l.map Prod.fst).Nodup →
        ((Obj.setEntries k v l).map Prod.fst).Nodup ∧
          ∀ x, x ∈ (Obj.setEntries k v l).map Prod.fst → x = k ∨ x ∈ l.map Prod.fst := by
      intro l
      induction l with
      | nil =>
        intro _
        simp [Obj.setEntries]
      | cons e es ih =>
        intro h
        rw [List.map_cons, List.nodup_cons] at h
        by_cases hk : e.1 = k
        · simp only [Obj.setEntries, if_pos hk, List.map_cons, List.nodup_cons, List.mem_cons]
          refine ⟨⟨hk ▸ h.1, h.2⟩, ?_⟩
          rintro x (hx | hx)
          · exact Or.inl hx
          · exact Or.inr (Or.inr hx)
        · simp only [Obj.setEntries, if_neg hk, List.map_cons, List.nodup_cons, List.mem_cons]
          obtain ⟨ih1, ih2⟩ := ih h.2
          refine ⟨⟨?_, ih1⟩, ?_⟩
          · intro hmem
            rcases ih2 _ hmem with h1 | h1
            · exact hk h1
            · exact h.1 h1
          · rintro x (hx | hx)
            · exact Or.inr (Or.inl hx)
            · rcases ih2 x hx with h1 | h1
              · exact Or.inl h1
              · exact Or.inr (Or.inr h1)
    exact (key o.entries o.nodupKeys).1

/-- The mood log `moods`: date key to mood label. -/
abbrev MoodLog := Obj Int String

/-- The update `toggleHabit(habitId, date)` of the completion log (App.jsx:43-55). -/
def toggleHabit (habitId : HabitId) (date : Int) (prev : Logs) : Logs :=
  let dateLogs := (prev.get? date).getD Obj.empty
  let newStatus := !((dateLogs.get? habitId).getD false)
  prev.set date (dateLogs.set habitId newStatus)

/-- The update `setMood(date, mood)` of the mood log (App.jsx:57-62). -/
def setMood (date : Int) (mood : String) (prev : MoodLog) : MoodLog :=
  prev.set date mood

/-- The seed habits (App.jsx:26-32). -/
def seedHabits : List Habit :=
  [{ id := 1, name := "Morning Jog", color := "bg-pastel-red" },
   { id := 2, name := "Read 30 mins", color := "bg-pastel-blue" },
   { id := 3, name := "Drink Water", color := "bg-pastel-green" },
   { id := 4, name := "Meditation", color := "bg-pastel-purple" },
   { id := 5, name := "Coding", color := "bg-pastel-yellow" }]

/-- The palette `colors` (App.jsx:68). -/
def colors : List String :=
  ["bg-pastel-red", "bg-pastel-blue", "bg-pastel-green", "bg-pastel-purple", "bg-pastel-yellow"]

/-- White space and line terminators of ECMAScript, the characters `trim` removes. -/
def isWhiteSpace (c : Char) : Bool :=
  c.val = 0x9 || c.val = 0xA || c.val = 0xB || c.val = 0xC || c.val = 0xD || c.val = 0x20 ||
  c.val = 0xA0 || c.val = 0x1680 || (0x2000 ≤ c.val && c.val ≤ 0x200A) || c.val = 0x2028 ||
  c.val = 0x2029 || c.val = 0x202F || c.val = 0x205F || c.val = 0x3000 || c.val = 0xFEFF

/-- The characters of `name.trim()`. -/
def trim (name : List Char) : List Char :=
  ((name.dropWhile isWhiteSpace).reverse.dropWhile isWhiteSpace).reverse

/-- The new collection passed to `setHabits` by `addHabit` (App.jsx:64-80) when the form
holds `newHabitName`, `Date.now()` returns `now` and `Math.random()` returns `random`; the
collection itself when `addHabit` returns early. -/
def addHabit (newHabitName : String) (now : Nat) (random : ℚ) (safeHabits : List Habit) :
    List Habit :=
  if trim newHabitName.toList = [] then safeHabits
  else
    let randomColor := colors.getD ⌊random * (colors.length : ℚ)⌋.toNat "undefined"
    let newHabit : Habit := { id := now, name := newHabitName, color := randomColor }
    safeHabits ++ [newHabit]

/-- The state of the application: habits, completion log, mood log. -/
structure AppState where
  habits : List Habit
  logs : Logs
  moods : MoodLog

/-- The effect of `deleteHabit(id)` (App.jsx:82-86); `confirmed` is the answer to the
`confirm` dialog. -/
def deleteHabit (confirmed : Bool) (id : HabitId) (state : AppState) : AppState :=
  if confirmed then { state with habits := state.habits.filter (fun h => h.id ≠ id) }
  else state

/-- A user command on the habit collection. -/
inductive HabitOp where
  | add (newHabitName : String) (now : Nat) (random : ℚ)
  | delete (id : HabitId)

/-- The habit collection after one command (a confirmed deletion or an addition). -/
def applyOp (habits : List Habit) : HabitOp → List Habit
  | HabitOp.add newHabitName now random => addHabit newHabitName now random habits
  | HabitOp.delete id => habits.filter (fun h => h.id ≠ id)

/-- The habit collection reached from the seed collection by a sequence of commands. -/
def runOps (ops : List HabitOp) : List Habit := ops.foldl applyOp seedHabits

/-- Every clock reading given to `addHabit` differs from the ids then in the collection. -/
def FreshClock : List Habit → List HabitOp → Prop
  | _, [] => True
  | habits, HabitOp.add newHabitName now random :: ops =>
    (∀ h ∈ habits, h.id ≠ now) ∧ FreshClock (addHabit newHabitName now random habits) ops
  | habits, HabitOp.delete id :: ops => FreshClock (habits.filter (fun h => h.id ≠ id)) ops

/-! ## Mood histogram and growth score (Dashboard.jsx:44-67) -/

/-- A value stored in `counts`: a number, or the text that `+ 1` produces from a value that
is not a number. -/
inductive JsCount where
  | number (n : Nat)
  | text
deriving DecidableEq, Repr

/-- Names of the properties that the object literal `{}` inherits from `Object.prototype`. -/
def objectPrototypeKeys : List String :=
  ["constructor", "hasOwnProperty", "isPrototypeOf", "propertyIsEnumerable", "toLocaleString",
   "toString", "valueOf", "__proto__", "__defineGetter__", "__defineSetter__",
   "__lookupGetter__", "__lookupSetter__"]

namespace Dashboard

/-- Body of the `forEach` of Dashboard.jsx:51-57 for a day whose mood is `mood` (`none` when
`moods[dateKey]` is `undefined`). `if (mood)` skips `undefined` and the empty string.
`counts[mood]` reads an own property or, failing that, an inherited one, which is a
function or object: `(counts[mood] || 0) + 1` is then a text. Assigning a text to
`__proto__` is ignored. -/
def moodStep (counts : Obj String JsCount) (mood : Option String) : Obj String JsCount :=
  match mood with
  | none => counts
  | some m =>
    if m = "" then counts
    else if m = "__proto__" then counts
    else
      match counts.get? m with
      | some (JsCount.number n) => counts.set m (JsCount.number (n + 1))
      | some JsCount.text => counts.set m JsCount.text
      | none =>
        if m ∈ objectPrototypeKeys then counts.set m JsCount.text
        else counts.set m (JsCount.number 1)

/-- The object `moodStats` (Dashboard.jsx:45-60). -/
def moodStats (moods : MoodLog) (currentDate : LocalDate) : Obj String JsCount :=
  let start := startOfMonth currentDate
  let finish := endOfMonth currentDate
  let days := eachDayOfInterval start finish
  days.foldl (fun counts day => moodStep counts (moods.get? day)) Obj.empty

/-- The expression `Math.floor(totalCompleted / 5) + Math.floor(happyMoods / 3)`
(Dashboard.jsx:66). -/
def forestSizeOf (totalCompleted happyMoods : Nat) : Int :=
  ⌊(totalCompleted : ℚ) / 5⌋ + ⌊(happyMoods : ℚ) / 3⌋

/-- The value `moodStats['Happy'] || 0` (Dashboard.jsx:65); `'Happy'` is not a property of
`Object.prototype`, so the stored value is a number. -/
def happyMoods (moodStats : Obj String JsCount) : Nat :=
  match moodStats.get? "Happy" with
  | some (JsCount.number n) => n
  | _ => 0

/-- The growth score `forestSize` (Dashboard.jsx:64-67). -/
def forestSize (logs : Logs) (habits : List Habit) (moods : MoodLog) (currentDate : LocalDate) :
    Int :=
  forestSizeOf (completionStats logs habits currentDate).totalCompleted
    (happyMoods (moodStats moods currentDate))

end Dashboard

/-! ## The days of the heatmap (HeatmapView.jsx:8-12) -/

/-- The local date `new Date(year, monthIndex, 1)`: a year from 0 to 99 stands for
1900 + year (ECMA-262, the `Date` constructor, `MakeFullYear`). -/
def newDate (year : Int) (monthIndex : Fin 12) : LocalDate :=
  { fullYear := if 0 ≤ year ∧ year ≤ 99 then 1900 + year else year, month := monthIndex }

/-- The day of `startOfYear(date)`: `setFullYear(getFullYear(), 0, 1)`. -/
def startOfYear (date : LocalDate) : Int := MakeDay date.fullYear 0 1

/-- The day of `endOfYear(date)`: `setFullYear(getFullYear() + 1, 0, 0)`. -/
def endOfYear (date : LocalDate) : Int := MakeDay (date.fullYear + 1) 0 0

namespace HeatmapView

/-- The list `days` (HeatmapView.jsx:8-12). -/
def days (year : Int) : List Int :=
  let start := startOfYear (newDate year 0)
  let finish := endOfYear (newDate year 0)
  eachDayOfInterval start finish

/-- The entries of `intensityMap` in the order of `days` (HeatmapView.jsx:15-35). -/
def intensityMap (logs : Logs) (habits : List Habit) (year : Int) : List (Int × Cell) :=
  (days year).map (fun day => (day, intensity logs habits day))

end HeatmapView

/-! ## Loading the persisted state (App.jsx:9-38) -/

/-- A JSON value, the result of `JSON.parse`. -/
inductive Json where
  | null
  | bool (b : Bool)
  | num (n : Int)
  | str (s : String)
  | arr (items : List Json)
  | obj (fields : List (String × Json))

/-- What `window.localStorage.getItem(key)` does: it throws, or it returns `null`
(`absent`), or it returns the stored text. -/
inductive StorageRead where
  | throws
  | absent
  | text (stickyValue : String)

/-- The initial value computed by `useStickyState(defaultValue, key)` (App.jsx:10-18).
`parse` is `JSON.parse`, `none` when it throws a `SyntaxError`. -/
def useStickyState (parse : String → Option Json) (storage : String → StorageRead)
    (defaultValue : Json) (key : String) : Json :=
  match storage key with
  | StorageRead.throws => defaultValue
  | StorageRead.absent => defaultValue
  | StorageRead.text stickyValue =>
    match parse stickyValue with
    | some value => value
    | none => defaultValue

/-- The seed habits as a JSON value, the default of `'habitflow-habits'`. -/
def seedHabitsJson : Json :=
  Json.arr (seedHabits.map (fun h =>
    Json.obj [("id", Json.num h.id), ("name", Json.str h.name), ("color", Json.str h.color)]))

/-- The loaded triple `habits`, `logs`, `moods` (App.jsx:26-38). -/
structure Loaded where
  habits : Json
  logs : Json
  moods : Json

/-- The three calls of `useStickyState` in `App`. -/
def load (parse : String → Option Json) (storage : String → StorageRead) : Loaded :=
  { habits := useStickyState parse storage seedHabitsJson "habitflow-habits",
    logs := useStickyState parse storage (Json.obj []) "habitflow-logs",
    moods := useStickyState parse storage (Json.obj []) "habitflow-moods" }

/-- The value `safeHabits = Array.isArray(habits) ? habits : []` (App.jsx:35). -/
def safeHabits (habits : Json) : List Json :=
  match habits with
  | Json.arr items => items
  | _ => []

/-- The call `Object.keys(value)` on a loaded value: a `TypeError` on `null`, no key on a
number or boolean, the indices of a string or array, the keys of an object. -/
def objectKeys : Json → Except String (List String)
  | Json.null => Except.error "TypeError: Cannot convert undefined or null to object"
  | Json.bool _ => Except.ok []
  | Json.num _ => Except.ok []
  | Json.str s => Except.ok ((List.range s.length).map toString)
  | Json.arr items => Except.ok ((List.range items.length).map toString)
  | Json.obj fields => Except.ok (fields.map Prod.fst)

/-- The property read `value[key]` for a date key on a loaded value that is `null` or a
mapping: a `TypeError` on `null`, the field or `undefined` (`none`) on an object. Other
shapes have no date-key property. -/
def getProperty (value : Json) (key : String) : Except String (Option Json) :=
  match value with
  | Json.null => Except.error "TypeError: Cannot read properties of null"
  | Json.obj fields => Except.ok ((fields.find? (fun f => f.1 = key)).map Prod.snd)
  | _ => Except.ok none

/-- A decoder that agrees with `JSON.parse` on the texts `null`, `{}`, `[]` and `{`, the
only texts of the concrete scenarios: the first three are values, the last is a syntax
error. -/
def parseSample (text : String) : Option Json :=
  if text = "null" then some Json.null
  else if text = "{}" then some (Json.obj [])
  else if text = "[]" then some (Json.arr [])
  else none

/-! ## Local calendar day -/

/-- The local calendar day of a time value in the host's zone, the key that
`format(date, 'yyyy-MM-dd')` writes (HabitGrid.jsx:162). -/
def localDate (z : Zone) (t : Int) : Int := z.localTime t / msPerDay

/-! ## Specification vocabulary for streaks -/

/-- The days `s, s + 1, ..., s + n - 1` are all checked for the habit. -/
def IsRun (logs : Logs) (id : HabitId) (s : Int) (n : Nat) : Prop :=
  ∀ i : Nat, i < n → isChecked logs (s + i) id = true

instance (logs : Logs) (id : HabitId) (s : Int) (n : Nat) : Decidable (IsRun logs id s n) := by
  unfold IsRun
  infer_instance

/-- A maximal run: a non-empty run of checked days that can be extended on neither side. -/
def IsMaximalRun (logs : Logs) (id : HabitId) (s : Int) (n : Nat) : Prop :=
  0 < n ∧ IsRun logs id s n ∧ isChecked logs (s - 1) id = false ∧
    isChecked logs (s + n) id = false

/-- Number of days of month `month` (0 = January) of `year` in the Gregorian calendar. -/
def daysInMonth (year : Int) (month : Fin 12) : Nat :=
  if month.val = 1 then
    (if (year % 4 = 0 ∧ year % 100 ≠ 0) ∨ year % 400 = 0 then 29 else 28)
  else if month.val = 3 ∨ month.val = 5 ∨ month.val = 8 ∨ month.val = 10 then 30
  else 31

/-- The completion ratio of a day of the heatmap: `completedCount / habitCount`, taken as
`0` when there is no habit. -/
def HeatmapView.ratio (cell : HeatmapView.Cell) (habitCount : Nat) : ℚ :=
  if habitCount = 0 then 0 else (cell.count : ℚ) / (habitCount : ℚ)

/-- The stored completion of a (day, habit) pair, `none` when the log has no entry for it. -/
def entry (logs : Logs) (date : Int) (id : HabitId) : Option Bool :=
  (logs.get? date).bind (fun dayLogs => dayLogs.get? id)

/-- The calendar days of the month of `date`, first to last: day `i + 1` at position `i`. -/
def daysOfMonth (date : LocalDate) : List Int :=
  (List.range (daysInMonth date.fullYear date.month)).map
    (fun (i : Nat) => dateKey date.fullYear ((date.month.val : Int) + 1) ((i : Int) + 1))

/-- Number of days of the month of `date` whose recorded mood is `label`. -/
def moodDayCount (moods : MoodLog) (date : LocalDate) (label : String) : Nat :=
  ((daysOfMonth date).filter (fun day => decide (moods.get? day = some label))).length

/-- The number a histogram value holds, `0` for a text. -/
def JsCount.value : JsCount → Nat
  | JsCount.number n => n
  | JsCount.text => 0

/-- Sum of the numbers stored in a histogram. -/
def numericTotal (counts : Obj String JsCount) : Nat :=
  (counts.entries.map (fun e => e.2.value)).sum

/-- The percentage `round(count / total * 100)` of the specification: the integer nearest
to the exact value of `count / total * 100`, a tie going up. -/
def roundedPercentage (count total : Nat) : Int :=
  ⌊(count : ℚ) / (total : ℚ) * 100 + 1 / 2⌋

/-- The calendar days of `year`, from 1 January to 31 December. -/
def daysOfYear (year : Int) : List Int :=
  (List.range (DaysInYear year).toNat).map (fun (i : Nat) => dateKey year 1 1 + (i : Int))

/-! ## Concrete scenarios -/

/-- The seed habit `{ id: 1, name: 'Morning Jog', color: 'bg-pastel-red' }` (App.jsx:27). -/
def morningJog : Habit := { id := 1, name := "Morning Jog", color := "bg-pastel-red" }

/-- The seed habit `{ id: 2, name: 'Read 30 mins', color: 'bg-pastel-blue' }` (App.jsx:28). -/
def read30 : Habit := { id := 2, name := "Read 30 mins", color := "bg-pastel-blue" }

/-- The day log `{ 1: true }`. -/
def joggedOnly : DayLog := ⟨[(1, true)], by decide⟩

/-- The day log `{ 1: true, 2: true }`. -/
def joggedAndRead : DayLog := ⟨[(1, true), (2, true)], by decide⟩

/-- The day log `{ 1: false, 2: true }`. -/
def readOnly : DayLog := ⟨[(1, false), (2, true)], by decide⟩

/-- The clock reading 2024-03-31T23:30:00Z, which is 01:30 on 1 April 2024 in Berlin. -/
def berlinNight : Int := dateKey 2024 3 31 * msPerDay + 23 * 3600000 + 30 * 60000

/-- The log `{ "2024-03-31": { 1: true } }`. -/
def logsMarch31 : Logs := ⟨[(dateKey 2024 3 31, joggedOnly)], by decide⟩

/-- Habit 1 checked on 2024-01-01..2024-01-05 and on 2024-01-08..2024-01-09. -/
def januaryLogs : Logs :=
  ⟨[(dateKey 2024 1 1, joggedOnly), (dateKey 2024 1 2, joggedOnly),
    (dateKey 2024 1 3, joggedOnly), (dateKey 2024 1 4, joggedOnly),
    (dateKey 2024 1 5, joggedOnly), (dateKey 2024 1 8, joggedOnly),
    (dateKey 2024 1 9, joggedOnly)], by decide⟩

/-- The clock reading 2024-01-09T12:00:00Z. -/
def januaryNoon : Int := dateKey 2024 1 9 * msPerDay + 12 * 3600000

/-- The log `{ "2024-01-09": { 1: false, 2: true } }`. -/
def uncheckedLogs : Logs := ⟨[(dateKey 2024 1 9, readOnly)], by decide⟩

/-- Habits 1 and 2 both checked on each of the 28 days of February 2023. -/
def februaryLogs : Logs :=
  ⟨(List.range 28).map (fun (i : Nat) => (dateKey 2023 2 1 + (i : Int), joggedAndRead)),
    by decide⟩

/-- February 2023 as the reference date of the dashboard. -/
def february2023 : LocalDate := { fullYear := 2023, month := 1 }

/-- The log `{ "2024-03-01": { 1: true, 2: false } }`. -/
def logsMarch1 : Logs :=
  ⟨[(dateKey 2024 3 1, ⟨[(1, true), (2, false)], by decide⟩)], by decide⟩

/-- March 2024 as the reference date of the dashboard. -/
def march2024 : LocalDate := { fullYear := 2024, month := 2 }

/-- The mood log `{ "2024-03-01": "" }`: an empty label recorded on 1 March 2024. -/
def blankMoods : MoodLog := ⟨[(dateKey 2024 3 1, "")], by decide⟩

/-- The mood log `{ "2024-03-01": "Happy", "2024-03-02": "Sleepy", "2024-03-03": "Happy",
"2024-04-01": "Happy" }`. -/
def marchMoods : MoodLog :=
  ⟨[(dateKey 2024 3 1, "Happy"), (dateKey 2024 3 2, "Sleepy"), (dateKey 2024 3 3, "Happy"),
    (dateKey 2024 4 1, "Happy")], by decide⟩

/-- The mood log `{ "2024-03-01": "constructor" }`. -/
def constructorMoods : MoodLog := ⟨[(dateKey 2024 3 1, "constructor")], by decide⟩

/-- Two additions at the same clock reading 1700000000000 (2023-11-14T22:13:20Z). -/
def sameClockOps : List HabitOp :=
  [HabitOp.add "Yoga" 1700000000000 0, HabitOp.add "Stretching" 1700000000000 (1 / 2)]

/-- An addition, the deletion of the seed habit 3, and an addition a minute later. -/
def freshClockOps : List HabitOp :=
  [HabitOp.add "Yoga" 1700000000000 0, HabitOp.delete 3,
    HabitOp.add "Stretching" 1700000060000 (1 / 2)]

/-- A state with the seed habits, the January log and the March moods. -/
def sampleState : AppState :=
  { habits := seedHabits, logs := januaryLogs, moods := marchMoods }

/-- A storage without habits, with the text `{` under `habitflow-logs`, and whose read of
`habitflow-moods` throws. -/
def brokenStorage (key : String) : StorageRead :=
  if key = "habitflow-logs" then StorageRead.text "\x7b"
  else if key = "habitflow-moods" then StorageRead.throws
  else StorageRead.absent

/-- A storage that holds the text `null` under `habitflow-logs` and nothing else. -/
def nullLogsStorage (key : String) : StorageRead :=
  if key = "habitflow-logs" then StorageRead.text "null" else StorageRead.absent

/-- The log `{ "2024-04-01": { 1: true } }`. -/
def logsApril1 : Logs := ⟨[(dateKey 2024 4 1, joggedOnly)], by decide⟩

/-- The log `{ "2024-03-30": { 1: true }, "2024-03-31": { 1: true } }`. -/
def logsMarch30and31 : Logs :=
  ⟨[(dateKey 2024 3 30, joggedOnly), (dateKey 2024 3 31, joggedOnly)], by decide⟩

/-- Forty habits, with ids 1 to 40. -/
def fortyHabits : List Habit :=
  (List.range 40).map (fun (i : Nat) => { id := i + 1, name := "Habit", color := "bg-pastel-red" })

/-- The day log `{ 1: true, ..., 23: true }`. -/
def twentyThreeChecked : DayLog :=
  ⟨(List.range 23).map (fun (i : Nat) => (i + 1, true)), by decide⟩

/-- The log `{ "2023-04-01": { 1: true, ..., 23: true } }`. -/
def tieLogs : Logs := ⟨[(dateKey 2023 4 1, twentyThreeChecked)], by decide⟩

/-- April 2023 as the reference date of the dashboard. -/
def april2023 : LocalDate := { fullYear := 2023, month := 3 }

/-- The first four seed habits (App.jsx:27-30). -/
def fourHabits : List Habit := seedHabits.take 4

/-- The day log `{ 1: true, 2: true, 3: true, 4: true }`. -/
def fourChecked : DayLog := ⟨[(1, true), (2, true), (3, true), (4, true)], by decide⟩

/-- Habits 1 to 4 checked on 2023-04-01..2023-04-17 and habit 1 on 2023-04-18: 69
completions. -/
def aprilLogs : Logs :=
  ⟨(List.range 17).map (fun (i : Nat) => (dateKey 2023 4 1 + (i : Int), fourChecked))
      ++ [(dateKey 2023 4 18, joggedOnly)],
    by decide⟩

/-! ## Lemmas on objects and on the sorted list of completed dates -/

theorem Obj.get?_eq_some_mem {κ ν : Type} [DecidableEq κ] {o : Obj κ ν} {k : κ} {v : ν}
    (h : o.get? k = some v) : (k, v) ∈ o.entries := by
  unfold Obj.get? at h
  rcases hf : o.entries.find? (fun e => decide (e.1 = k)) with _ | e
  · simp [hf] at h
  · rw [hf] at h
    simp at h
    have h1 := List.find?_some hf
    have h2 := List.mem_of_find?_eq_some hf
    simp only [decide_eq_true_eq] at h1
    rcases e with ⟨a, b⟩
    subst h1
    subst h
    exact h2

theorem Obj.get?_eq_none_iff {κ ν : Type} [DecidableEq κ] {o : Obj κ ν} {k : κ} :
    o.get? k = none ↔ k ∉ o.keys := by
  simp only [Obj.get?, Obj.keys, Option.map_eq_none', List.find?_eq_none, decide_eq_true_eq,
    List.mem_map, not_exists, not_and]

theorem isChecked_mem_keys {logs : Logs} {date : Int} {id : HabitId}
    (h : isChecked logs date id = true) : date ∈ logs.keys := by
  by_contra hn
  have hnone := Obj.get?_eq_none_iff.mpr hn
  simp [isChecked, hnone] at h

theorem msPerDay_eq : msPerDay = 86400000 := by decide

theorem parseDate_sub_div (a b : Int) : (parseDate a - parseDate b) / msPerDay = a - b := by
  unfold parseDate
  rw [← sub_mul]
  exact Int.mul_ediv_cancel _ (by decide)

theorem parseDate_sub_nonpos (a b : Int) : parseDate a - parseDate b ≤ 0 ↔ a ≤ b := by
  have h : parseDate a - parseDate b = (a - b) * 86400000 := by
    unfold parseDate
    rw [msPerDay_eq]
    ring
  rw [h]
  omega

theorem mem_completedDates {logs : Logs} {id : HabitId} {d : Int} :
    d ∈ completedDates logs id ↔ isChecked logs d id = true := by
  unfold completedDates
  rw [List.mem_insertionSort, List.mem_filter]
  constructor
  · exact fun h => h.2
  · exact fun h => ⟨isChecked_mem_keys h, h⟩

theorem completedDates_sorted (logs : Logs) (id : HabitId) :
    (completedDates logs id).Pairwise (· < ·) := by
  haveI : IsTotal Int (fun a b => parseDate a - parseDate b ≤ 0) :=
    ⟨fun a b => by
      simp only [parseDate_sub_nonpos]
      exact le_total a b⟩
  haveI : IsTrans Int (fun a b => parseDate a - parseDate b ≤ 0) :=
    ⟨fun a b c => by
      simp only [parseDate_sub_nonpos]
      exact le_trans⟩
  have hs : (completedDates logs id).Sorted (fun a b => parseDate a - parseDate b ≤ 0) :=
    List.sorted_insertionSort _ _
  have hle : (completedDates logs id).Sorted (· ≤ ·) :=
    List.Pairwise.imp (fun {a b} h => (parseDate_sub_nonpos a b).mp h) hs
  have hnd : (completedDates logs id).Nodup := by
    unfold completedDates
    refine (List.perm_insertionSort _ _).nodup_iff.mpr ?_
    exact List.Nodup.filter _ logs.nodupKeys
  exact hle.lt_of_le hnd

/-! ## The best-streak scan -/

theorem bestScan_cons_some (p d : Int) (temp best : Nat) (rest : List Int) :
    bestScan (some p) temp best (d :: rest) =
      bestScan (some d) (if d - p = 1 then temp + 1 else 1)
        (if (if d - p = 1 then temp + 1 else 1) > best then
          (if d - p = 1 then temp + 1 else 1) else best) rest := by
  simp only [bestScan, parseDate_sub_div]

theorem bestScan_cons_none (d : Int) (temp best : Nat) (rest : List Int) :
    bestScan none temp best (d :: rest) =
      bestScan (some d) 1 (if 1 > best then 1 else best) rest := by
  simp only [bestScan]

/-- Invariant of the scan: `temp` is the length of the run of checked days that ends at the
date `p` scanned last, and `best` is the greatest length of a run that ends at or before `p`. -/
theorem bestScan_some_spec (S : Int → Prop) :
    ∀ (rest : List Int) (p : Int) (temp best : Nat),
      (p :: rest).Pairwise (· < ·) →
      (∀ x, p < x → (S x ↔ x ∈ rest)) →
      0 < temp → temp ≤ best →
      (∀ i : Nat, i < temp → S (p - i)) → ¬ S (p - temp) →
      (∃ s : Int, ∀ i : Nat, i < best → S (s + i)) →
      (∀ (s : Int) (n : Nat), (∀ i : Nat, i < n → S (s + i)) → s + n - 1 ≤ p → n ≤ best) →
      (∃ s : Int, ∀ i : Nat, i < bestScan (some p) temp best rest → S (s + i)) ∧
      (∀ (s : Int) (n : Nat), (∀ i : Nat, i < n → S (s + i)) →
          n ≤ bestScan (some p) temp best rest) := by
  intro rest
  induction rest with
  | nil =>
    intro p temp best _ hS _ _ _ _ hatt hall
    simp only [bestScan]
    refine ⟨hatt, ?_⟩
    intro s n hn
    rcases Nat.eq_zero_or_pos n with h0 | hpos
    · omega
    · apply hall s n hn
      by_contra hlt
      have hin : S (s + ((n - 1 : Nat) : Int)) := hn (n - 1) (by omega)
      have hmem := (hS (s + ((n - 1 : Nat) : Int)) (by omega)).mp hin
      simp at hmem
  | cons d rest ih =>
    intro p temp best hsort hS htemp hle hrun hstop hatt hall
    rw [bestScan_cons_some]
    have hpd : p < d := (List.pairwise_cons.mp hsort).1 d (List.mem_cons_self _ _)
    have hsort1 : (d :: rest).Pairwise (· < ·) := (List.pairwise_cons.mp hsort).2
    have hgt : ∀ y ∈ rest, d < y := (List.pairwise_cons.mp hsort1).1
    have hSd : S d := (hS d hpd).mpr (List.mem_cons_self _ _)
    have hS1 : ∀ x, d < x → (S x ↔ x ∈ rest) := by
      intro x hx
      rw [hS x (by omega), List.mem_cons]
      constructor
      · rintro (h | h)
        · omega
        · exact h
      · exact fun h => Or.inr h
    have hbetween : ∀ x, p < x → x < d → ¬ S x := by
      intro x hx1 hx2 hx
      rcases List.mem_cons.mp ((hS x hx1).mp hx) with h | h
      · omega
      · have := hgt x h
        omega
    -- the new running length and its properties
    obtain ⟨t1, ht1⟩ : ∃ t1 : Nat, t1 = (if d - p = 1 then temp + 1 else 1) := ⟨_, rfl⟩
    rw [← ht1]
    have ht1pos : 0 < t1 := by
      rw [ht1]; split_ifs <;> omega
    have hrun1 : ∀ i : Nat, i < t1 → S (d - i) := by
      intro i hi
      by_cases hdp : d - p = 1
      · rw [ht1, if_pos hdp] at hi
        rcases Nat.eq_zero_or_pos i with h0 | hpos
        · subst h0
          simpa using hSd
        · have := hrun (i - 1) (by omega)
          have heq : d - (i : Int) = p - ((i - 1 : Nat) : Int) := by omega
          rw [heq]
          exact this
      · rw [ht1, if_neg hdp] at hi
        have h0 : i = 0 := by omega
        subst h0
        simpa using hSd
    have hstop1 : ¬ S (d - t1) := by
      by_cases hdp : d - p = 1
      · rw [ht1, if_pos hdp]
        have heq : d - ((temp + 1 : Nat) : Int) = p - (temp : Int) := by
          push_cast
          omega
        rw [heq]
        exact hstop
      · rw [ht1, if_neg hdp]
        apply hbetween
        · push_cast
          omega
        · push_cast
          omega
    obtain ⟨b1, hb1⟩ : ∃ b1 : Nat, b1 = (if t1 > best then t1 else best) := ⟨_, rfl⟩
    rw [← hb1]
    have hle1 : t1 ≤ b1 := by
      rw [hb1]; split_ifs <;> omega
    have hbb : best ≤ b1 := by
      rw [hb1]; split_ifs <;> omega
    have hatt1 : ∃ s : Int, ∀ i : Nat, i < b1 → S (s + i) := by
      by_cases hgt1 : t1 > best
      · rw [hb1, if_pos hgt1]
        refine ⟨d - ((t1 - 1 : Nat) : Int), ?_⟩
        intro i hi
        have := hrun1 (t1 - 1 - i) (by omega)
        have heq : d - ((t1 - 1 : Nat) : Int) + (i : Int) = d - ((t1 - 1 - i : Nat) : Int) := by
          omega
        rw [heq]
        exact this
      · rw [hb1, if_neg hgt1]
        exact hatt
    have hall1 : ∀ (s : Int) (n : Nat), (∀ i : Nat, i < n → S (s + i)) →
        s + n - 1 ≤ d → n ≤ b1 := by
      intro s n hn hend
      rcases Nat.eq_zero_or_pos n with h0 | hpos
      · omega
      · have hlast : S (s + ((n - 1 : Nat) : Int)) := hn (n - 1) (by omega)
        by_cases hd : s + (n : Int) - 1 = d
        · -- the run ends at `d`: it is no longer than the running length
          by_contra hlt
          have hlt1 : t1 < n := by omega
          have := hn (n - 1 - t1) (by omega)
          have heq : s + ((n - 1 - t1 : Nat) : Int) = d - (t1 : Int) := by omega
          rw [heq] at this
          exact hstop1 this
        · have hlt : s + ((n - 1 : Nat) : Int) < d := by omega
          have hlep : s + ((n - 1 : Nat) : Int) ≤ p := by
            by_contra hgtp
            exact hbetween _ (by omega) hlt hlast
          have := hall s n hn (by omega)
          omega
    exact ih d t1 b1 hsort1 hS1 ht1pos hle1 hrun1 hstop1 hatt1 hall1

/-- The scan returns the greatest length of a run of checked days: some run has that
length and no run is longer. -/
theorem bestStreak_greatest (logs : Logs) (id : HabitId) :
    (∃ s, IsRun logs id s (bestStreak logs id)) ∧
      ∀ s n, IsRun logs id s n → n ≤ bestStreak logs id := by
  unfold bestStreak IsRun
  have hsorted := completedDates_sorted logs id
  have hmem : ∀ x, x ∈ completedDates logs id ↔ isChecked logs x id = true :=
    fun x => mem_completedDates
  rcases hl : completedDates logs id with _ | ⟨d, rest⟩
  · rw [hl] at hmem
    simp only [bestScan]
    refine ⟨⟨0, fun i hi => by omega⟩, ?_⟩
    intro s n hn
    rcases Nat.eq_zero_or_pos n with h0 | hpos
    · omega
    · have := (hmem (s + ((0 : Nat) : Int))).mpr (hn 0 hpos)
      simp at this
  · rw [hl] at hmem hsorted
    rw [bestScan_cons_none]
    have hgt : ∀ y ∈ rest, d < y := (List.pairwise_cons.mp hsorted).1
    have hge : ∀ x, isChecked logs x id = true → d ≤ x := by
      intro x hx
      rcases List.mem_cons.mp ((hmem x).mpr hx) with h | h
      · omega
      · exact le_of_lt (hgt x h)
    have hd : isChecked logs d id = true := (hmem d).mp (List.mem_cons_self _ _)
    apply bestScan_some_spec (fun x => isChecked logs x id = true) rest d 1 1 hsorted
    · intro x hx
      rw [← hmem x, List.mem_cons]
      constructor
      · rintro (h | h)
        · omega
        · exact h
      · exact fun h => Or.inr h
    · omega
    · omega
    · intro i hi
      have h0 : i = 0 := by omega
      subst h0
      simpa using hd
    · intro h
      have := hge _ h
      push_cast at this
      omega
    · exact ⟨d, fun i hi => by
        have h0 : i = 0 := by omega
        subst h0
        simpa using hd⟩
    · intro s n hn hend
      by_contra hlt
      have h1 := hge _ (hn 0 (by omega))
      have h2 := hge _ (hn 1 (by omega))
      push_cast at h1 h2
      omega

/-- A run of checked days of the greatest length cannot be extended: it is maximal. -/
theorem IsRun.maximal_of_greatest {logs : Logs} {id : HabitId} {s : Int} {n : Nat}
    (hpos : 0 < n) (hrun : IsRun logs id s n)
    (hall : ∀ t m, IsRun logs id t m → m ≤ n) : IsMaximalRun logs id s n := by
  refine ⟨hpos, hrun, ?_, ?_⟩
  · by_contra hc
    have hc1 : isChecked logs (s - 1) id = true := by simpa using hc
    have hlong : IsRun logs id (s - 1) (n + 1) := by
      intro i hi
      rcases Nat.eq_zero_or_pos i with h0 | hipos
      · subst h0
        simpa using hc1
      · have := hrun (i - 1) (by omega)
        have heq : s - 1 + (i : Int) = s + ((i - 1 : Nat) : Int) := by omega
        rw [heq]
        exact this
    have := hall _ _ hlong
    omega
  · by_contra hc
    have hc1 : isChecked logs (s + n) id = true := by simpa using hc
    have hlong : IsRun logs id s (n + 1) := by
      intro i hi
      by_cases hin : i < n
      · exact hrun i hin
      · have heq : i = n := by omega
        subst heq
        exact hc1
    have := hall _ _ hlong
    omega

/-! ## C1: the best streak is the length of the longest maximal run -/

/-- C1: for every completion log (its keys are date keys) and every habit, the best streak
returned by the streak engine bounds the length of every maximal run of consecutive
checked days, is the length of some maximal run as soon as it is positive, and is `0`
exactly when the habit is checked on no day. -/
theorem best_streak_is_longest_maximal_run (z : Zone) (now : Int) (logs : Logs)
    (habit : Habit) :
    (∀ s n, IsMaximalRun logs habit.id s n → n ≤ (streakEntry z now logs habit).best) ∧
    ((streakEntry z now logs habit).best = 0 ∨
      ∃ s, IsMaximalRun logs habit.id s (streakEntry z now logs habit).best) ∧
    ((streakEntry z now logs habit).best = 0 ↔ ∀ d, isChecked logs d habit.id = false) := by
  obtain ⟨⟨s, hs⟩, hall⟩ := bestStreak_greatest logs habit.id
  simp only [streakEntry]
  refine ⟨fun t n h => hall t n h.2.1, ?_, ?_⟩
  · rcases Nat.eq_zero_or_pos (bestStreak logs habit.id) with h0 | hpos
    · exact Or.inl h0
    · exact Or.inr ⟨s, IsRun.maximal_of_greatest hpos hs hall⟩
  · constructor
    · intro h0 d
      by_contra hc
      have hc1 : isChecked logs d habit.id = true := by simpa using hc
      have hone : IsRun logs habit.id d 1 := by
        intro i hi
        have hi0 : i = 0 := by omega
        subst hi0
        simpa using hc1
      have := hall d 1 hone
      omega
    · intro hnone
      by_contra hne
      have := hs 0 (by omega)
      rw [hnone] at this
      exact Bool.false_ne_true this

/-! ## C5: two runs separated by a gap of two days -/

/-- C5: when the checked days of a habit are exactly `a` consecutive days from `s`, then two
unchecked days, then `b` consecutive days, the best streak is `max a b`, and it is not
`a + b`. -/
theorem best_streak_two_runs (z : Zone) (now : Int) (logs : Logs) (habit : Habit)
    (s : Int) (a b : Nat) (ha : 1 ≤ a) (hb : 1 ≤ b)
    (hdays : ∀ d, isChecked logs d habit.id = true ↔
      (s ≤ d ∧ d < s + a) ∨ (s + a + 2 ≤ d ∧ d < s + a + 2 + b)) :
    (streakEntry z now logs habit).best = max a b ∧
      (streakEntry z now logs habit).best ≠ a + b := by
  obtain ⟨⟨t, ht⟩, hall⟩ := bestStreak_greatest logs habit.id
  simp only [streakEntry]
  have hA : a ≤ bestStreak logs habit.id := by
    apply hall s a
    intro i hi
    exact (hdays _).mpr (Or.inl ⟨by omega, by omega⟩)
  have hB : b ≤ bestStreak logs habit.id := by
    apply hall (s + a + 2) b
    intro i hi
    exact (hdays _).mpr (Or.inr ⟨by omega, by omega⟩)
  have hle : bestStreak logs habit.id ≤ max a b := by
    by_contra hgt
    have hgt1 : max a b < bestStreak logs habit.id := by omega
    have h0 := (hdays _).mp (ht 0 (by omega))
    rcases h0 with ⟨h1, h2⟩ | ⟨h1, h2⟩
    · have hi : (s + a - t).toNat < bestStreak logs habit.id := by omega
      have := (hdays _).mp (ht _ hi)
      omega
    · have hi : (s + a + 2 + b - t).toNat < bestStreak logs habit.id := by omega
      have := (hdays _).mp (ht _ hi)
      omega
  constructor
  · omega
  · omega

/-! ## C6: a habit with no completion -/

theorem isChecked_false_of_keys {logs : Logs} {id : HabitId}
    (h : ∀ d ∈ logs.keys, isChecked logs d id = false) (d : Int) :
    isChecked logs d id = false := by
  by_contra hc
  have hc1 : isChecked logs d id = true := by simpa using hc
  have := h d (isChecked_mem_keys hc1)
  rw [this] at hc1
  exact Bool.false_ne_true hc1

/-- C6: a habit that is checked on no day of the log (no entry at all, or entries that are
all `false`) gets `{ current: 0, best: 0 }`, whatever the clock reading and the zone. -/
theorem streak_zero_of_no_completion (z : Zone) (now : Int) (logs : Logs) (habit : Habit)
    (hnone : ∀ d ∈ logs.keys, isChecked logs d habit.id = false) :
    streakEntry z now logs habit = { current := 0, best := 0 } := by
  have hall := isChecked_false_of_keys hnone
  have hbest : bestStreak logs habit.id = 0 := by
    obtain ⟨⟨s, hs⟩, _⟩ := bestStreak_greatest logs habit.id
    by_contra hne
    have := hs 0 (by omega)
    rw [hall] at this
    exact Bool.false_ne_true this
  have hcur : currentStreak z now logs habit.id = 0 := by
    simp [currentStreak, hall]
  simp only [streakEntry, hbest, hcur]

/-! ## The backward walk of the current streak -/

theorem foldr_min_le (l : List Int) (x : Int) (hx : x ∈ l) : l.foldr min 0 ≤ x := by
  induction l with
  | nil => simp at hx
  | cons a l ih =>
    simp only [List.foldr_cons]
    rcases List.mem_cons.mp hx with h | h
    · subst h
      exact min_le_left _ _
    · exact le_trans (min_le_right _ _) (ih h)

theorem parseDate_isoDate_le (t : Int) : parseDate (isoDate t) ≤ t := by
  unfold parseDate isoDate
  rw [msPerDay_eq]
  omega

theorem horizon_le_of_isChecked {logs : Logs} {id : HabitId} {t : Int}
    (h : isChecked logs (isoDate t) id = true) : horizon logs ≤ t := by
  have h1 := foldr_min_le logs.keys (isoDate t) (isChecked_mem_keys h)
  have h2 := parseDate_isoDate_le t
  unfold horizon
  unfold parseDate at *
  rw [msPerDay_eq] at *
  omega

/-- The walk does not depend on the number of iterations allowed once it is at least
`walkBound`: the bound is never reached. -/
theorem walkBack_fuel (z : Zone) (logs : Logs) (id : HabitId) :
    ∀ (n m : Nat) (p : Int) (c : Nat), walkBound logs p ≤ n → walkBound logs p ≤ m →
      walkBack z logs id n p c = walkBack z logs id m p c := by
  intro n
  induction n with
  | zero =>
    intro m p c hn _
    unfold walkBound at hn
    omega
  | succ n ih =>
    intro m p c hn hm
    cases m with
    | zero =>
      unfold walkBound at hm
      omega
    | succ m =>
      simp only [walkBack]
      by_cases hc : isChecked logs (isoDate p) id = true
      · rw [if_pos hc, if_pos hc]
        have hlt := z.setDate_lt p
        have hh := horizon_le_of_isChecked hc
        apply ih
        · unfold walkBound at *
          unfold setDateBack
          omega
        · unfold walkBound at *
          unfold setDateBack
          omega
      · rw [if_neg hc, if_neg hc]

theorem walkBack_succ (z : Zone) (logs : Logs) (id : HabitId) (n : Nat) (p : Int) (c : Nat) :
    walkBack z logs id (n + 1) p c =
      if isChecked logs (isoDate p) id then walkBack z logs id n (setDateBack z p) (c + 1)
      else c := rfl

/-- The model of the walk satisfies the equation of the source loop (App.jsx:161-169): a
checked day is counted and the pointer moved, an unchecked day ends the loop. -/
theorem walkBack_loop (z : Zone) (logs : Logs) (id : HabitId) (p : Int) (c : Nat) :
    walkBack z logs id (walkBound logs p) p c =
      if isChecked logs (isoDate p) id then
        walkBack z logs id (walkBound logs (setDateBack z p)) (setDateBack z p) (c + 1)
      else c := by
  obtain ⟨k, hk⟩ : ∃ k, walkBound logs p = k + 1 := ⟨_, rfl⟩
  rw [hk, walkBack_succ]
  by_cases hc : isChecked logs (isoDate p) id = true
  · rw [if_pos hc, if_pos hc]
    have hlt := z.setDate_lt p
    have hh := horizon_le_of_isChecked hc
    apply walkBack_fuel
    · unfold walkBound at *
      unfold setDateBack
      omega
    · exact le_refl _
  · rw [if_neg hc, if_neg hc]

theorem setDateBack_fixed (offset t : Int) :
    setDateBack (Zone.fixed offset) t = t - msPerDay := by
  simp only [setDateBack, Zone.fixed]
  omega

theorem isoDate_sub_day (t : Int) : isoDate (t - msPerDay) = isoDate t - 1 := by
  unfold isoDate
  rw [msPerDay_eq]
  omega

/-- In a zone of constant offset the walk counts the run of checked days that ends at the
UTC day of the pointer. -/
theorem walkBack_fixed_run (offset : Int) (logs : Logs) (id : HabitId) :
    ∀ (k n : Nat) (p : Int) (c : Nat), k < n →
      IsRun logs id (isoDate p - k + 1) k → isChecked logs (isoDate p - k) id = false →
      walkBack (Zone.fixed offset) logs id n p c = c + k := by
  intro k
  induction k with
  | zero =>
    intro n p c hn _ hstop
    cases n with
    | zero => omega
    | succ n =>
      simp only [walkBack]
      have h0 : isChecked logs (isoDate p) id = false := by simpa using hstop
      simp [h0]
  | succ k ih =>
    intro n p c hn hrun hstop
    cases n with
    | zero => omega
    | succ n =>
      simp only [walkBack]
      have hp : isChecked logs (isoDate p) id = true := by
        have := hrun k (by omega)
        have heq : isoDate p - ((k + 1 : Nat) : Int) + 1 + (k : Int) = isoDate p := by
          push_cast
          omega
        rw [heq] at this
        exact this
      rw [if_pos hp, setDateBack_fixed]
      have := ih n (p - msPerDay) (c + 1) (by omega)
        (by
          intro i hi
          have := hrun i (by omega)
          have heq : isoDate (p - msPerDay) - (k : Int) + 1 + (i : Int)
              = isoDate p - ((k + 1 : Nat) : Int) + 1 + (i : Int) := by
            rw [isoDate_sub_day]
            push_cast
            omega
          rw [heq]
          exact this)
        (by
          have heq : isoDate (p - msPerDay) - (k : Int) = isoDate p - ((k + 1 : Nat) : Int) := by
            rw [isoDate_sub_day]
            push_cast
            omega
          rw [heq]
          exact hstop)
      rw [this]
      omega

theorem lt_walkBound_of_run {logs : Logs} {id : HabitId} {p : Int} {k : Nat}
    (hrun : IsRun logs id (isoDate p - k + 1) k) : k < walkBound logs p := by
  rcases Nat.eq_zero_or_pos k with h0 | hpos
  · unfold walkBound
    omega
  · have hfirst := hrun 0 hpos
    have h1 := foldr_min_le logs.keys _ (isChecked_mem_keys hfirst)
    have h2 := parseDate_isoDate_le p
    unfold walkBound horizon
    unfold parseDate at *
    rw [msPerDay_eq] at *
    push_cast at h1
    omega

/-- In a zone of constant offset, a run of `k ≥ 1` checked days ending today (the UTC day
of the clock reading) with the day before it unchecked gives a current streak of `k`. -/
theorem currentStreak_fixed_today (offset now : Int) (logs : Logs) (id : HabitId) (k : Nat)
    (hk : 1 ≤ k) (hrun : IsRun logs id (isoDate now - k + 1) k)
    (hstop : isChecked logs (isoDate now - k) id = false) :
    currentStreak (Zone.fixed offset) now logs id = k := by
  have htoday : isChecked logs (isoDate now) id = true := by
    have := hrun (k - 1) (by omega)
    have heq : isoDate now - (k : Int) + 1 + ((k - 1 : Nat) : Int) = isoDate now := by omega
    rw [heq] at this
    exact this
  simp only [currentStreak, htoday, Bool.not_true, Bool.false_and, Bool.false_eq_true,
    if_false]
  rw [walkBack_fixed_run offset logs id k _ now 0 (lt_walkBound_of_run hrun) hrun hstop]
  omega

/-- In a zone of constant offset, with today unchecked, a run of `k ≥ 1` checked days
ending yesterday with the day before it unchecked gives a current streak of `k`. -/
theorem currentStreak_fixed_yesterday (offset now : Int) (logs : Logs) (id : HabitId)
    (k : Nat) (hk : 1 ≤ k) (htoday : isChecked logs (isoDate now) id = false)
    (hrun : IsRun logs id (isoDate now - 1 - k + 1) k)
    (hstop : isChecked logs (isoDate now - 1 - k) id = false) :
    currentStreak (Zone.fixed offset) now logs id = k := by
  have hy : isoDate (now - 86400000) = isoDate now - 1 := by
    rw [← msPerDay_eq]
    exact isoDate_sub_day now
  have hyesterday : isChecked logs (isoDate now - 1) id = true := by
    have := hrun (k - 1) (by omega)
    have heq : isoDate now - 1 - (k : Int) + 1 + ((k - 1 : Nat) : Int) = isoDate now - 1 := by
      omega
    rw [heq] at this
    exact this
  simp only [currentStreak, hy, htoday, hyesterday, Bool.not_false, Bool.not_true,
    Bool.and_false, Bool.false_eq_true, if_false, if_true, setDateBack_fixed]
  have hrun1 : IsRun logs id (isoDate (now - msPerDay) - k + 1) k := by
    rw [isoDate_sub_day]
    exact hrun
  have hstop1 : isChecked logs (isoDate (now - msPerDay) - k) id = false := by
    rw [isoDate_sub_day]
    exact hstop
  rw [walkBack_fixed_run offset logs id k _ (now - msPerDay) 0 (lt_walkBound_of_run hrun1)
    hrun1 hstop1]
  omega

/-- Whatever the zone, a habit checked neither today nor yesterday has current streak 0. -/
theorem currentStreak_zero (z : Zone) (now : Int) (logs : Logs) (id : HabitId)
    (htoday : isChecked logs (isoDate now) id = false)
    (hyesterday : isChecked logs (isoDate now - 1) id = false) :
    currentStreak z now logs id = 0 := by
  have hy : isoDate (now - 86400000) = isoDate now - 1 := by
    rw [← msPerDay_eq]
    exact isoDate_sub_day now
  simp [currentStreak, hy, htoday, hyesterday]

/-- In a zone of constant offset every day counted by the walk is checked and the days are
consecutive: the count is the length of a run. -/
theorem walkBack_fixed_isRun (offset : Int) (logs : Logs) (id : HabitId) :
    ∀ (n : Nat) (p : Int) (c : Nat), ∃ r : Nat,
      walkBack (Zone.fixed offset) logs id n p c = c + r ∧
        IsRun logs id (isoDate p - r + 1) r := by
  intro n
  induction n with
  | zero =>
    intro p c
    exact ⟨0, by simp [walkBack], fun i hi => by omega⟩
  | succ n ih =>
    intro p c
    simp only [walkBack]
    by_cases hc : isChecked logs (isoDate p) id = true
    · rw [if_pos hc, setDateBack_fixed]
      obtain ⟨r, hr, hrun⟩ := ih (p - msPerDay) (c + 1)
      refine ⟨r + 1, by rw [hr]; omega, ?_⟩
      intro i hi
      by_cases hir : i < r
      · have := hrun i hir
        rw [isoDate_sub_day] at this
        have heq : isoDate p - ((r + 1 : Nat) : Int) + 1 + (i : Int)
            = isoDate p - 1 - (r : Int) + 1 + (i : Int) := by
          push_cast
          omega
        rw [heq]
        exact this
      · have hieq : i = r := by omega
        subst hieq
        have heq : isoDate p - ((i + 1 : Nat) : Int) + 1 + (i : Int) = isoDate p := by
          push_cast
          omega
        rw [heq]
        exact hc
    · rw [if_neg hc]
      exact ⟨0, by omega, fun i hi => by omega⟩

/-- In a zone of constant offset the current streak never exceeds the best streak. -/
theorem current_le_best_fixed (offset now : Int) (logs : Logs) (id : HabitId) :
    currentStreak (Zone.fixed offset) now logs id ≤ bestStreak logs id := by
  unfold currentStreak
  simp only []
  split_ifs
  · omega
  · obtain ⟨r, hr, hrun⟩ := walkBack_fixed_isRun offset logs id
      (walkBound logs (setDateBack (Zone.fixed offset) now))
      (setDateBack (Zone.fixed offset) now) 0
    rw [hr]
    have := (bestStreak_greatest logs id).2 _ _ hrun
    omega
  · obtain ⟨r, hr, hrun⟩ := walkBack_fixed_isRun offset logs id (walkBound logs now) now 0
    rw [hr]
    have := (bestStreak_greatest logs id).2 _ _ hrun
    omega

/-! ## C2 and C3: the current streak across a change of the zone's offset

`pointer.setDate(pointer.getDate() - 1)` steps back one local day while
`pointer.toISOString()` reads the UTC day. When the offset of the zone changes between two
visited days, two consecutive pointers can fall on the same UTC day. -/

/-- C2 (the code departs from the claim): in Berlin at 01:30 on 1 April 2024
(2024-03-31T23:30Z), with the habit checked on 2024-03-31 only, the single run of checked
days is 2024-03-31 alone. Counting backward gives 1, whether today is read as the UTC day
2024-03-31 (checked, the day before unchecked) or as the local day 2024-04-01 (unchecked,
with yesterday 2024-03-31 checked). The current streak is 2: the pointer moved back one
local day from today is still on the UTC day 2024-03-31, and only the next one reaches
2024-03-30. -/
theorem current_streak_counts_day_twice_across_dst :
    isoDate berlinNight = dateKey 2024 3 31 ∧
    localDate Zone.berlin2024 berlinNight = dateKey 2024 4 1 ∧
    isChecked logsMarch31 (dateKey 2024 4 1) morningJog.id = false ∧
    isChecked logsMarch31 (dateKey 2024 3 31) morningJog.id = true ∧
    isChecked logsMarch31 (dateKey 2024 3 30) morningJog.id = false ∧
    isoDate (setDateBack Zone.berlin2024 berlinNight) = dateKey 2024 3 31 ∧
    isoDate (setDateBack Zone.berlin2024 (setDateBack Zone.berlin2024 berlinNight))
      = dateKey 2024 3 30 ∧
    IsMaximalRun logsMarch31 morningJog.id (dateKey 2024 3 31) 1 ∧
    (streakEntry Zone.berlin2024 berlinNight logsMarch31 morningJog).current = 2 := by
  refine ⟨by decide, by decide, by decide, by decide, by decide, by decide, by decide,
    ⟨by decide, by decide, by decide, by decide⟩, by decide⟩

/-- C3 (the code departs from the claim): in Berlin at 01:30 on 1 April 2024
(2024-03-31T23:30Z), with the habit checked on 2024-03-31 only, the streak engine returns
`{ current: 2, best: 1 }`: the walk reads 2024-03-31 twice. -/
theorem best_lt_current_across_dst :
    streakEntry Zone.berlin2024 berlinNight logsMarch31 morningJog
      = { current := 2, best := 1 } := by
  decide

/-! ## C4: a run ending today -/

/-- C4 (as stated, refuted): the claim asks for an unchecked day at `today - k - 1` only.
With the habit checked on 2024-01-08 and 2024-01-09, unchecked on 2024-01-07, and today
2024-01-09, the premises hold for `k = 1` while the current streak is 2. -/
theorem current_streak_run_claim_fails :
    ¬ ∀ (z : Zone) (now : Int) (logs : Logs) (habit : Habit) (k : Nat), 1 ≤ k →
        (∀ i : Nat, i < k → isChecked logs (isoDate now - i) habit.id = true) →
        isChecked logs (isoDate now - k - 1) habit.id = false →
        (streakEntry z now logs habit).current = k := by
  intro h
  have h1 := h (Zone.fixed 0) januaryNoon januaryLogs morningJog 1 (by decide) (by decide)
    (by decide)
  revert h1
  decide

/-- C4 (amended): in a zone of constant offset, for every `k ≥ 1`, if the habit is checked
on every day from `today - k + 1` through `today` and unchecked on `today - k`, the current
streak is exactly `k`, whatever the log holds further in the past. `today` is the UTC day
of the clock reading. -/
theorem current_streak_eq_run_length (offset now : Int) (logs : Logs) (habit : Habit)
    (k : Nat) (hk : 1 ≤ k)
    (hrun : ∀ i : Nat, i < k → isChecked logs (isoDate now - i) habit.id = true)
    (hstop : isChecked logs (isoDate now - k) habit.id = false) :
    (streakEntry (Zone.fixed offset) now logs habit).current = k := by
  simp only [streakEntry]
  apply currentStreak_fixed_today offset now logs habit.id k hk _ hstop
  intro i hi
  have := hrun (k - 1 - i) (by omega)
  have heq : isoDate now - (k : Int) + 1 + (i : Int) = isoDate now - ((k - 1 - i : Nat) : Int) := by
    omega
  rw [heq]
  exact this

/-- C4 (amended), at the scenario of the specification: checked on 2024-01-08 and
2024-01-09, unchecked on 2024-01-07, today 2024-01-09, in a zone two hours ahead of UTC:
the current streak is 2. -/
theorem current_streak_eq_run_length_witness :
    (streakEntry (Zone.fixed 7200000) januaryNoon januaryLogs morningJog).current = 2 :=
  current_streak_eq_run_length 7200000 januaryNoon januaryLogs morningJog 2 (by decide)
    (by decide) (by decide)

/-! ## Witnesses for C5 and C6 -/

theorem januaryLogs_checked (d : Int) :
    isChecked januaryLogs d morningJog.id = true ↔
      (dateKey 2024 1 1 ≤ d ∧ d < dateKey 2024 1 1 + (5 : Nat)) ∨
        (dateKey 2024 1 1 + (5 : Nat) + 2 ≤ d ∧ d < dateKey 2024 1 1 + (5 : Nat) + 2 + (2 : Nat)) := by
  have hs : dateKey 2024 1 1 = 19723 := by decide
  have hk : januaryLogs.keys = [19723, 19724, 19725, 19726, 19727, 19730, 19731] := by decide
  rw [hs]
  constructor
  · intro h
    have hm := isChecked_mem_keys h
    rw [hk] at hm
    simp only [List.mem_cons, List.mem_singleton, List.not_mem_nil, or_false] at hm
    omega
  · intro h
    have hcases : d = 19723 ∨ d = 19724 ∨ d = 19725 ∨ d = 19726 ∨ d = 19727 ∨ d = 19730 ∨
        d = 19731 := by omega
    rcases hcases with h | h | h | h | h | h | h <;> subst h <;> decide

/-- C5 at the scenario of the specification: checked on 2024-01-01..05 and 2024-01-08..09
gives a best streak of `max 5 2 = 5`, not `7`. -/
theorem best_streak_two_runs_witness :
    (streakEntry (Zone.fixed 0) januaryNoon januaryLogs morningJog).best = max 5 2 ∧
      (streakEntry (Zone.fixed 0) januaryNoon januaryLogs morningJog).best ≠ 5 + 2 :=
  best_streak_two_runs (Zone.fixed 0) januaryNoon januaryLogs morningJog (dateKey 2024 1 1) 5 2
    (by decide) (by decide) januaryLogs_checked

/-- C6 at a log whose only entry for the habit is `false`: the streaks are `0` and `0`. -/
theorem streak_zero_of_no_completion_witness :
    streakEntry Zone.berlin2024 januaryNoon uncheckedLogs morningJog
      = { current := 0, best := 0 } :=
  streak_zero_of_no_completion Zone.berlin2024 januaryNoon uncheckedLogs morningJog
    (by decide)

/-! ## Rounding and day counts -/

theorem roundedPercentage_eq (c n : Nat) (hn : 0 < n) :
    roundedPercentage c n = (200 * (c : Int) + (n : Int)) / (2 * (n : Int)) := by
  unfold roundedPercentage
  have hn0 : (n : ℚ) ≠ 0 := by exact_mod_cast (Nat.pos_iff_ne_zero.mp hn)
  have h : ((c : ℚ) / (n : ℚ)) * 100 + 1 / 2
      = ((200 * (c : Int) + (n : Int) : Int) : ℚ) / ((2 * n : Nat) : ℚ) := by
    push_cast
    field_simp
    ring
  rw [h, Rat.floor_intCast_div_natCast]
  push_cast
  rfl

theorem mathRound_nonneg (x : ℚ) (hx : 0 ≤ x) : 0 ≤ mathRound x := by
  unfold mathRound
  apply Int.floor_nonneg.mpr
  linarith

/-! ## Rounding to the nearest double -/

theorem roundHalfEven_sub_le (x : ℚ) : |((roundHalfEven x : Int) : ℚ) - x| ≤ 1 / 2 := by
  have h1 := Int.floor_le x
  have h2 := Int.lt_floor_add_one x
  unfold roundHalfEven
  simp only []
  by_cases ha : x - ⌊x⌋ < 1 / 2
  · rw [if_pos ha, abs_le]
    constructor <;> linarith
  · rw [if_neg ha]
    by_cases hb : 1 / 2 < x - ⌊x⌋
    · rw [if_pos hb, abs_le]
      push_cast
      constructor <;> linarith
    · rw [if_neg hb]
      have he : x - ⌊x⌋ = 1 / 2 := le_antisymm (not_lt.mp hb) (not_lt.mp ha)
      by_cases hc : ⌊x⌋ % 2 = 0
      · rw [if_pos hc, abs_le]
        constructor <;> linarith
      · rw [if_neg hc, abs_le]
        push_cast
        constructor <;> linarith

theorem roundHalfEven_eq_of_close (x : ℚ) (m : Int) (h : |x - (m : ℚ)| < 1 / 2) :
    roundHalfEven x = m := by
  rw [abs_lt] at h
  unfold roundHalfEven
  simp only []
  by_cases hx : (m : ℚ) ≤ x
  · have hf : ⌊x⌋ = m := by
      rw [Int.floor_eq_iff]
      constructor <;> linarith [h.1, h.2]
    rw [hf, if_pos (by linarith [h.2])]
  · have hf : ⌊x⌋ = m - 1 := by
      rw [Int.floor_eq_iff]
      push_cast
      constructor <;> linarith [h.1, h.2]
    rw [hf]
    push_cast
    rw [if_neg (by linarith [h.1]), if_pos (by linarith [h.1])]
    omega

theorem roundHalfEven_nonneg (x : ℚ) (hx : 0 ≤ x) : 0 ≤ roundHalfEven x := by
  have hf : 0 ≤ ⌊x⌋ := Int.floor_nonneg.mpr hx
  unfold roundHalfEven
  simp only []
  split_ifs <;> omega

theorem toDouble_zero : toDouble 0 = 0 := by
  simp [toDouble]

theorem toDouble_nonneg (x : ℚ) (hx : 0 ≤ x) : 0 ≤ toDouble x := by
  unfold toDouble
  by_cases h0 : x = 0
  · rw [if_pos h0]
  · rw [if_neg h0]
    simp only []
    have hu : (0 : ℚ) < 2 ^ (Int.log 2 |x| - 52) := by positivity
    apply mul_nonneg
    · exact_mod_cast roundHalfEven_nonneg _ (div_nonneg hx hu.le)
    · exact hu.le

/-- The relative error of rounding to a double is at most `2 ^ (-53)`. -/
theorem toDouble_error (x : ℚ) (hx : 0 < x) : |toDouble x - x| ≤ x / 2 ^ 53 := by
  unfold toDouble
  rw [if_neg hx.ne']
  simp only []
  rw [abs_of_pos hx]
  set e := Int.log 2 x with he
  have hu : (0 : ℚ) < 2 ^ (e - 52) := by positivity
  have hle : ((2 : Nat) : ℚ) ^ e ≤ x := Int.zpow_log_le_self (by norm_num) hx
  have hr := roundHalfEven_sub_le (x / 2 ^ (e - 52))
  have hsplit : (2 : ℚ) ^ e = 2 ^ (e - 52) * 2 ^ 52 := by
    rw [zpow_sub₀ (by norm_num)]
    norm_cast
    field_simp
  have hmul : ((roundHalfEven (x / 2 ^ (e - 52)) : Int) : ℚ) * 2 ^ (e - 52) - x
      = (((roundHalfEven (x / 2 ^ (e - 52)) : Int) : ℚ) - x / 2 ^ (e - 52)) * 2 ^ (e - 52) := by
    field_simp
  rw [hmul, abs_mul, abs_of_pos hu]
  push_cast at hle
  rw [hsplit] at hle
  calc |((roundHalfEven (x / 2 ^ (e - 52)) : Int) : ℚ) - x / 2 ^ (e - 52)| * 2 ^ (e - 52)
      ≤ 1 / 2 * 2 ^ (e - 52) := by
        apply mul_le_mul_of_nonneg_right hr hu.le
    _ = (2 ^ (e - 52) * 2 ^ 52) / 2 ^ 53 := by
        field_simp
        ring
    _ ≤ x / 2 ^ 53 := by
        apply div_le_div_of_nonneg_right hle
        positivity

/-- Evaluation of `toDouble`: a value with exponent `e` that lies within less than half a
unit in the last place of `m * 2 ^ (e - 52)` rounds to it. -/
theorem toDouble_eq_of_close (x : ℚ) (e m : Int) (h1 : (2 : ℚ) ^ e ≤ x) (h2 : x < 2 ^ (e + 1))
    (h3 : |x / 2 ^ (e - 52) - (m : ℚ)| < 1 / 2) : toDouble x = (m : ℚ) * 2 ^ (e - 52) := by
  have hx : 0 < x := lt_of_lt_of_le (by positivity) h1
  have hlog : Int.log 2 x = e := by
    apply le_antisymm
    · have := (Int.lt_zpow_iff_log_lt (b := 2) (by norm_num) hx (x := e + 1)).mp
        (by push_cast; exact h2)
      omega
    · exact (Int.zpow_le_iff_le_log (b := 2) (by norm_num) hx).mp (by push_cast; exact h1)
  unfold toDouble
  rw [if_neg hx.ne']
  simp only []
  rw [abs_of_pos hx, hlog, roundHalfEven_eq_of_close _ m h3]


theorem numMul_numDiv_zero (n : Nat) : numMul (numDiv ((0 : Nat) : ℚ) (n : ℚ)) 100 = 0 := by
  simp [numMul, numDiv, toDouble_zero]

/-- The double `(c / n) * 100` lies within `1 / (2 n)` of the exact value. -/
theorem numMul_numDiv_close (c n : Nat) (hn : 0 < n) (hc : c ≤ 2 ^ 43) :
    |numMul (numDiv (c : ℚ) (n : ℚ)) 100 - (c : ℚ) / (n : ℚ) * 100| * (n : ℚ) ≤ 1 / 2 ∧
      (0 < c → |numMul (numDiv (c : ℚ) (n : ℚ)) 100 - (c : ℚ) / (n : ℚ) * 100| * (n : ℚ)
        < 1 / 2) := by
  have hN : (0 : ℚ) < (n : ℚ) := by exact_mod_cast hn
  rcases Nat.eq_zero_or_pos c with h0 | hpos
  · subst h0
    rw [numMul_numDiv_zero]
    simp
  · have hC : (0 : ℚ) < (c : ℚ) := by exact_mod_cast hpos
    have hCle : (c : ℚ) ≤ 2 ^ 43 := by exact_mod_cast hc
    have hr : (0 : ℚ) < (c : ℚ) / (n : ℚ) := div_pos hC hN
    have e1 := toDouble_error _ hr
    rw [abs_le] at e1
    have hy1 : 0 < toDouble ((c : ℚ) / (n : ℚ)) := by
      have : (c : ℚ) / (n : ℚ) / 2 ^ 53 < (c : ℚ) / (n : ℚ) := by
        apply div_lt_self hr
        norm_num
      linarith [e1.1]
    have hz : 0 < toDouble ((c : ℚ) / (n : ℚ)) * 100 := by positivity
    have e2 := toDouble_error _ hz
    rw [abs_le] at e2
    have hrn : (c : ℚ) / (n : ℚ) * (n : ℚ) = (c : ℚ) := by field_simp
    have key : |numMul (numDiv (c : ℚ) (n : ℚ)) 100 - (c : ℚ) / (n : ℚ) * 100| * (n : ℚ)
        < 1 / 2 := by
      unfold numMul numDiv
      set r := (c : ℚ) / (n : ℚ) with hrdef
      set y1 := toDouble r with hy1def
      set y2 := toDouble (y1 * 100) with hy2def
      have hb : |y2 - r * 100| ≤ r * (400 / 2 ^ 53) - r / 2 ^ 53 := by
        rw [abs_le]
        constructor
        · nlinarith [e1.1, e1.2, e2.1, e2.2]
        · nlinarith [e1.1, e1.2, e2.1, e2.2]
      have hb2 : |y2 - r * 100| * (n : ℚ) ≤ (r * (400 / 2 ^ 53) - r / 2 ^ 53) * (n : ℚ) :=
        mul_le_mul_of_nonneg_right hb hN.le
      have hb3 : (r * (400 / 2 ^ 53) - r / 2 ^ 53) * (n : ℚ) = (c : ℚ) * (399 / 2 ^ 53) := by
        have : (r * (400 / 2 ^ 53) - r / 2 ^ 53) * (n : ℚ) = (r * (n : ℚ)) * (399 / 2 ^ 53) := by
          ring
        rw [this, hrn]
      rw [hb3] at hb2
      have : (c : ℚ) * (399 / 2 ^ 53) < 1 / 2 := by
        have : (c : ℚ) * (399 / 2 ^ 53) ≤ 2 ^ 43 * (399 / 2 ^ 53) :=
          mul_le_mul_of_nonneg_right hCle (by norm_num)
        have h2 : (2 : ℚ) ^ 43 * (399 / 2 ^ 53) < 1 / 2 := by norm_num
        linarith
      linarith
    exact ⟨key.le, fun _ => key⟩


theorem int_cast_lt_add_one_le (a b : Int) (h : (a : ℚ) < (b : ℚ)) : (a : ℚ) + 1 ≤ (b : ℚ) := by
  have h1 : a < b := by exact_mod_cast h
  have h2 : a + 1 ≤ b := h1
  exact_mod_cast h2

/-- `Math.round` of the Number `(c / n) * 100` is the exact rounding of `c / n * 100`, or one
less when `c / n * 100` is exactly half-way between two integers. -/
theorem mathRound_percentage (c n : Nat) (hn : 0 < n) (hc : c ≤ 2 ^ 43) :
    mathRound (numMul (numDiv (c : ℚ) (n : ℚ)) 100) = roundedPercentage c n ∨
    (mathRound (numMul (numDiv (c : ℚ) (n : ℚ)) 100) = roundedPercentage c n - 1 ∧
      (c : ℚ) / (n : ℚ) * 100 + 1 / 2 = (roundedPercentage c n : ℚ)) := by
  have hN : (0 : ℚ) < (n : ℚ) := by exact_mod_cast hn
  have hN1 : (1 : ℚ) ≤ (n : ℚ) := by exact_mod_cast hn
  rcases Nat.eq_zero_or_pos c with h0 | hpos
  · subst h0
    left
    rw [numMul_numDiv_zero]
    simp [mathRound, roundedPercentage]
  · obtain ⟨hle, hlt⟩ := numMul_numDiv_close c n hn hc
    have hlt := hlt hpos
    set y := numMul (numDiv (c : ℚ) (n : ℚ)) 100 with hy
    set x := (c : ℚ) / (n : ℚ) * 100 with hx
    have hxN : x * (n : ℚ) = 100 * (c : ℚ) := by
      rw [hx]
      field_simp
      ring
    have habs1 : (y - x) * (n : ℚ) < 1 / 2 :=
      lt_of_le_of_lt (mul_le_mul_of_nonneg_right (le_abs_self _) hN.le) hlt
    have habs2 : (x - y) * (n : ℚ) < 1 / 2 := by
      have : x - y ≤ |y - x| := by
        rw [abs_sub_comm]
        exact le_abs_self _
      exact lt_of_le_of_lt (mul_le_mul_of_nonneg_right this hN.le) hlt
    unfold mathRound roundedPercentage
    set p := ⌊y + 1 / 2⌋ with hp
    set q := ⌊x + 1 / 2⌋ with hq
    have hp1 : (p : ℚ) ≤ y + 1 / 2 := Int.floor_le _
    have hp2 : y + 1 / 2 < (p : ℚ) + 1 := Int.lt_floor_add_one _
    have hq1 : (q : ℚ) ≤ x + 1 / 2 := Int.floor_le _
    have hq2 : x + 1 / 2 < (q : ℚ) + 1 := Int.lt_floor_add_one _
    -- p ≤ q
    have hpq : p ≤ q := by
      by_contra hcon
      have h1 : q + 1 ≤ p := by omega
      have h1q : (q : ℚ) + 1 ≤ (p : ℚ) := by exact_mod_cast h1
      have h2 : x + 1 / 2 < (p : ℚ) := by linarith
      have h3 : ((200 * (c : Int) + (n : Int) : Int) : ℚ) < ((2 * p * (n : Int) : Int) : ℚ) := by
        push_cast
        have h21 := mul_lt_mul_of_pos_right h2 hN
        have h22 : (x + 1 / 2) * (n : ℚ) = x * (n : ℚ) + (n : ℚ) / 2 := by ring
        have h23 : 2 * (p : ℚ) * (n : ℚ) = 2 * ((p : ℚ) * (n : ℚ)) := by ring
        linarith
      have h4 := int_cast_lt_add_one_le _ _ h3
      push_cast at h4
      have h5 : ((p : ℚ) - 1 / 2 - x) * (n : ℚ) ≤ (y - x) * (n : ℚ) :=
        mul_le_mul_of_nonneg_right (by linarith) hN.le
      have h6 : ((p : ℚ) - 1 / 2 - x) * (n : ℚ)
          = (2 * (p : ℚ) * (n : ℚ)) / 2 - (n : ℚ) / 2 - x * (n : ℚ) := by ring
      linarith
    -- q - 1 ≤ p
    have hqp : q - 1 ≤ p := by
      by_contra hcon
      have h1 : p + 2 ≤ q := by omega
      have h1q : (p : ℚ) + 2 ≤ (q : ℚ) := by exact_mod_cast h1
      have h2 : 1 < x - y := by linarith
      have h3 : 1 * (n : ℚ) ≤ (x - y) * (n : ℚ) := mul_le_mul_of_nonneg_right h2.le hN.le
      linarith
    rcases (by omega : p = q ∨ p = q - 1) with h | h
    · left
      exact h
    · right
      refine ⟨h, ?_⟩
      by_contra hne
      have hlt2 : (q : ℚ) < x + 1 / 2 := lt_of_le_of_ne hq1 (fun hh => hne hh.symm)
      have h3 : ((2 * q * (n : Int) : Int) : ℚ) < ((200 * (c : Int) + (n : Int) : Int) : ℚ) := by
        push_cast
        have h21 := mul_lt_mul_of_pos_right hlt2 hN
        have h22 : (x + 1 / 2) * (n : ℚ) = x * (n : ℚ) + (n : ℚ) / 2 := by ring
        have h23 : 2 * (q : ℚ) * (n : ℚ) = 2 * ((q : ℚ) * (n : ℚ)) := by ring
        linarith
      have h4 := int_cast_lt_add_one_le _ _ h3
      push_cast at h4
      have hpq2 : (p : ℚ) = (q : ℚ) - 1 := by exact_mod_cast h
      have h5 : 0 < ((q : ℚ) - 1 / 2 - y) * (n : ℚ) := by
        apply mul_pos _ hN
        linarith
      have h6 : (x - y) * (n : ℚ)
          = x * (n : ℚ) + (n : ℚ) / 2 - (2 * (q : ℚ) * (n : ℚ)) / 2
            + ((q : ℚ) - 1 / 2 - y) * (n : ℚ) := by ring
      linarith


/-- A value `c / n * 100` exactly half-way between two integers needs `n` divisible by 8. -/
theorem eight_dvd_of_tie (c n : Nat) (q : Int) (hn : 0 < n)
    (h : (c : ℚ) / (n : ℚ) * 100 + 1 / 2 = (q : ℚ)) : 8 ∣ n := by
  have hN : (n : ℚ) ≠ 0 := by exact_mod_cast (Nat.pos_iff_ne_zero.mp hn)
  have h1 : (((n : Int) * (2 * q - 1) : Int) : ℚ) = ((200 * (c : Int) : Int) : ℚ) := by
    push_cast
    field_simp at h
    linarith
  have h2 : (n : Int) * (2 * q - 1) = 200 * (c : Int) := by exact_mod_cast h1
  have hco : IsCoprime ((2 : Int) ^ 3) (2 * q - 1) :=
    IsCoprime.pow_left ⟨q, -1, by ring⟩
  have hdvd : ((2 : Int) ^ 3) ∣ (n : Int) * (2 * q - 1) := by
    rw [h2]
    exact ⟨25 * (c : Int), by ring⟩
  have h8 : ((2 : Int) ^ 3) ∣ (n : Int) := hco.dvd_of_dvd_mul_right hdvd
  have h9 : ((8 : Nat) : Int) ∣ (n : Int) := by
    have e : ((8 : Nat) : Int) = (2 : Int) ^ 3 := by norm_num
    rw [e]
    exact h8
  exact Int.natCast_dvd_natCast.mp h9

/-- With a total that is not a multiple of 8, `Math.round` of the Number `(c / n) * 100` is
the exact rounding. -/
theorem mathRound_percentage_exact (c n : Nat) (hn : 0 < n) (hc : c ≤ 2 ^ 43)
    (h8 : ¬ 8 ∣ n) :
    mathRound (numMul (numDiv (c : ℚ) (n : ℚ)) 100) = roundedPercentage c n := by
  rcases mathRound_percentage c n hn hc with h | ⟨_, htie⟩
  · exact h
  · exact absurd (eight_dvd_of_tie c n _ hn htie) h8

/-- The Number `(56 / 28) * 100` is 200 and rounds to 200: both operations are exact. -/
theorem mathRound_percentage_56_28 :
    mathRound (numMul (numDiv ((56 : Nat) : ℚ) ((28 : Nat) : ℚ)) 100) = 200 := by
  unfold numDiv
  rw [toDouble_eq_of_close _ 1 (2 ^ 52) (by norm_num) (by norm_num)
    (by rw [abs_lt]; constructor <;> norm_num)]
  unfold numMul
  rw [toDouble_eq_of_close _ 7 (200 * 2 ^ 45) (by norm_num) (by norm_num)
    (by rw [abs_lt]; constructor <;> norm_num)]
  unfold mathRound
  rw [Int.floor_eq_iff]
  constructor <;> norm_num

/-- The Number `23 / 40` is `5179139571476070 * 2 ^ (-53)`, a little below 0.575. -/
theorem numDiv_23_40 :
    numDiv ((23 : Nat) : ℚ) ((40 : Nat) : ℚ) = 5179139571476070 / 2 ^ 53 := by
  unfold numDiv
  rw [toDouble_eq_of_close _ (-1) 5179139571476070 (by norm_num) (by norm_num)
    (by rw [abs_lt]; constructor <;> norm_num)]
  norm_num

/-- The Number `(23 / 40) * 100` is `8092405580431359 * 2 ^ (-47)`, printed
57.49999999999999. -/
theorem numMul_numDiv_23_40 :
    numMul (numDiv ((23 : Nat) : ℚ) ((40 : Nat) : ℚ)) 100 = 8092405580431359 / 2 ^ 47 := by
  rw [numDiv_23_40]
  unfold numMul
  rw [toDouble_eq_of_close _ 5 8092405580431359 (by norm_num) (by norm_num)
    (by rw [abs_lt]; constructor <;> norm_num)]
  norm_num

/-- The Number `(69 / 120) * 100` is the same double: `69 / 120 = 23 / 40`. -/
theorem numMul_numDiv_69_120 :
    numMul (numDiv ((69 : Nat) : ℚ) ((120 : Nat) : ℚ)) 100 = 8092405580431359 / 2 ^ 47 := by
  have h : ((69 : Nat) : ℚ) / ((120 : Nat) : ℚ) = ((23 : Nat) : ℚ) / ((40 : Nat) : ℚ) := by
    norm_num
  have h1 : numDiv ((69 : Nat) : ℚ) ((120 : Nat) : ℚ)
      = numDiv ((23 : Nat) : ℚ) ((40 : Nat) : ℚ) := by
    unfold numDiv
    rw [h]
  rw [h1]
  exact numMul_numDiv_23_40

theorem mathRound_57 : mathRound (8092405580431359 / 2 ^ 47) = 57 := by
  unfold mathRound
  rw [Int.floor_eq_iff]
  constructor <;> norm_num

theorem Dashboard.completionStats_percentage (logs : Logs) (habits : List Habit)
    (currentDate : LocalDate) :
    (Dashboard.completionStats logs habits currentDate).percentage =
      if (Dashboard.completionStats logs habits currentDate).totalPossible = 0 then 0
      else mathRound (numMul (numDiv
        ((Dashboard.completionStats logs habits currentDate).totalCompleted : ℚ)
        ((Dashboard.completionStats logs habits currentDate).totalPossible : ℚ)) 100) :=
  rfl

/-! ## C7 and C8: entries of habits that are no longer in the collection

`Object.values(dayLogs).filter(Boolean).length` counts every truthy entry of the day,
also those stored under the id of a deleted habit. -/

/-- C7 (the code departs from the claim): with the single habit 1 in the collection and a
February 2023 in which habit 1 and the deleted habit 2 are checked every day, the monthly
statistics are 56 completed out of 28 possible, 200 percent. -/
theorem completion_percentage_above_100 :
    Dashboard.completionStats februaryLogs [morningJog] february2023
      = { totalCompleted := 56, totalPossible := 28, percentage := 200 } := by
  have hp := Dashboard.completionStats_percentage februaryLogs [morningJog] february2023
  have hc : (Dashboard.completionStats februaryLogs [morningJog] february2023).totalCompleted
      = 56 := by decide
  have ht : (Dashboard.completionStats februaryLogs [morningJog] february2023).totalPossible
      = 28 := by decide
  rw [hc, ht, if_neg (by decide)] at hp
  have hp1 : (Dashboard.completionStats februaryLogs [morningJog] february2023).percentage
      = 200 := by
    rw [hp]
    exact mathRound_percentage_56_28
  rcases hstats : Dashboard.completionStats februaryLogs [morningJog] february2023
    with ⟨tc, tp, pc⟩
  rw [hstats] at hc ht hp1
  simp only at hc ht hp1
  rw [hc, ht, hp1]

/-- With no habit in the collection the monthly percentage is 0, whatever the log holds. -/
theorem Dashboard.completionStats_no_habits (logs : Logs) (currentDate : LocalDate) :
    (Dashboard.completionStats logs [] currentDate).percentage = 0 := by
  simp [Dashboard.completionStats]

/-- The monthly percentage is never negative. -/
theorem Dashboard.completionStats_percentage_nonneg (logs : Logs) (habits : List Habit)
    (currentDate : LocalDate) :
    0 ≤ (Dashboard.completionStats logs habits currentDate).percentage := by
  simp only [Dashboard.completionStats]
  split_ifs
  · exact le_refl _
  · apply mathRound_nonneg
    exact toDouble_nonneg _ (mul_nonneg (toDouble_nonneg _ (by positivity)) (by norm_num))

/-- C8 (the code departs from the claim): with the single habit 1 in the collection and
`{ 1: true, 2: true }` logged on 2023-02-01, the dashboard counts 2 completed for that day
(in `completedCount` and in every entry of `trendData`), while the heatmap and the grid
count 1, the number of habits of the collection checked on that day. -/
theorem dashboard_counts_orphan_entries :
    Dashboard.completedCount februaryLogs (dateKey 2023 2 1) = 2 ∧
    ((Dashboard.trendData februaryLogs [morningJog] february2023).map (fun e => e.count)).head?
      = some 2 ∧
    HeatmapView.completedCount februaryLogs [morningJog] (dateKey 2023 2 1) = 1 ∧
    HabitGrid.totalCompleted februaryLogs [morningJog] (dateKey 2023 2 1) = 1 := by
  decide

/-- The heatmap and the grid count the same thing: the habits of the collection checked on
the day. -/
theorem HeatmapView.completedCount_eq_grid (logs : Logs) (habits : List Habit) (dateKey : Int) :
    HeatmapView.completedCount logs habits dateKey
      = HabitGrid.totalCompleted logs habits dateKey := by
  unfold HeatmapView.completedCount HabitGrid.totalCompleted isChecked
  rcases hl : logs.get? dateKey with _ | dayLogs
  · simp [Obj.get?, Obj.empty]
  · simp

/-! ## C9: the heatmap level as a function of the completion ratio -/

theorem foldl_indicator_le {α : Type} (p : α → Bool) (l : List α) (acc : Nat) :
    l.foldl (fun acc h => acc + (if p h then 1 else 0)) acc ≤ acc + l.length := by
  induction l generalizing acc with
  | nil => simp
  | cons a l ih =>
    simp only [List.foldl_cons, List.length_cons]
    have := ih (acc + (if p a then 1 else 0))
    by_cases hp : p a = true
    · rw [if_pos hp] at this ⊢
      omega
    · rw [if_neg hp] at this ⊢
      omega

theorem HeatmapView.completedCount_le_length (logs : Logs) (habits : List Habit)
    (dateKey : Int) : HeatmapView.completedCount logs habits dateKey ≤ habits.length := by
  unfold HeatmapView.completedCount
  have := foldl_indicator_le
    (fun h : Habit => (((logs.get? dateKey).getD Obj.empty).get? h.id).getD false) habits 0
  simpa using this

/-- The level in terms of the ratio `c / n` (taken as `0` when `n = 0`), for `c ≤ n`. -/
theorem HeatmapView.level_by_ratio (c n : Nat) (hcn : c ≤ n) :
    (HeatmapView.level c n = 0 ↔ (if n = 0 then (0 : ℚ) else (c : ℚ) / (n : ℚ)) = 0) ∧
    (HeatmapView.level c n = 1 ↔
      0 < (if n = 0 then (0 : ℚ) else (c : ℚ) / (n : ℚ)) ∧
        (if n = 0 then (0 : ℚ) else (c : ℚ) / (n : ℚ)) ≤ 1 / 4) ∧
    (HeatmapView.level c n = 2 ↔
      1 / 4 < (if n = 0 then (0 : ℚ) else (c : ℚ) / (n : ℚ)) ∧
        (if n = 0 then (0 : ℚ) else (c : ℚ) / (n : ℚ)) ≤ 1 / 2) ∧
    (HeatmapView.level c n = 3 ↔
      1 / 2 < (if n = 0 then (0 : ℚ) else (c : ℚ) / (n : ℚ)) ∧
        (if n = 0 then (0 : ℚ) else (c : ℚ) / (n : ℚ)) ≤ 3 / 4) ∧
    (HeatmapView.level c n = 4 ↔
      3 / 4 < (if n = 0 then (0 : ℚ) else (c : ℚ) / (n : ℚ)) ∧
        (if n = 0 then (0 : ℚ) else (c : ℚ) / (n : ℚ)) ≤ 1) := by
  by_cases hn : n = 0
  · subst hn
    norm_num [HeatmapView.level]
  · simp only [if_neg hn]
    have hnpos : (0 : ℚ) < (n : ℚ) := by exact_mod_cast Nat.pos_of_ne_zero hn
    by_cases hc : c = 0
    · subst hc
      norm_num [HeatmapView.level]
    · have hcpos : (0 : ℚ) < (c : ℚ) := by exact_mod_cast Nat.pos_of_ne_zero hc
      have hr : (0 : ℚ) < (c : ℚ) / (n : ℚ) := div_pos hcpos hnpos
      have hr1 : (c : ℚ) / (n : ℚ) ≤ 1 := by
        rw [div_le_one hnpos]
        exact_mod_cast hcn
      have hcond : n > 0 ∧ c > 0 := ⟨Nat.pos_of_ne_zero hn, Nat.pos_of_ne_zero hc⟩
      unfold HeatmapView.level
      rw [if_pos hcond]
      simp only []
      split_ifs with h1 h2 h3
      · refine ⟨?_, ?_, ?_, ?_, ?_⟩ <;> constructor <;> intro h <;>
          first
          | contradiction
          | omega
          | (exfalso; linarith)
          | (constructor <;> linarith)
      · refine ⟨?_, ?_, ?_, ?_, ?_⟩ <;> constructor <;> intro h <;>
          first
          | contradiction
          | omega
          | (exfalso; linarith)
          | (constructor <;> linarith)
      · refine ⟨?_, ?_, ?_, ?_, ?_⟩ <;> constructor <;> intro h <;>
          first
          | contradiction
          | omega
          | (exfalso; linarith)
          | (constructor <;> linarith)
      · refine ⟨?_, ?_, ?_, ?_, ?_⟩ <;> constructor <;> intro h <;>
          first
          | contradiction
          | omega
          | (exfalso; linarith)
          | (constructor <;> linarith)

/-- C9: the heatmap level of a day is 0, 1, 2, 3 or 4 according to whether the ratio
`completedCount / habitCount` (0 without habits) is 0, in (0, 25%], in (25%, 50%], in
(50%, 75%] or in (75%, 100%]; without habits the level is 0 whatever the log holds; with
habits 1 and 2 and only habit 1 checked the level is 2 and the count 1. -/
theorem heatmap_level_by_ratio (logs : Logs) (habits : List Habit) (dateKey0 : Int) :
    ((HeatmapView.intensity logs habits dateKey0).level = 0 ↔
      HeatmapView.ratio (HeatmapView.intensity logs habits dateKey0) habits.length = 0) ∧
    ((HeatmapView.intensity logs habits dateKey0).level = 1 ↔
      0 < HeatmapView.ratio (HeatmapView.intensity logs habits dateKey0) habits.length ∧
        HeatmapView.ratio (HeatmapView.intensity logs habits dateKey0) habits.length
          ≤ 1 / 4) ∧
    ((HeatmapView.intensity logs habits dateKey0).level = 2 ↔
      1 / 4 < HeatmapView.ratio (HeatmapView.intensity logs habits dateKey0) habits.length ∧
        HeatmapView.ratio (HeatmapView.intensity logs habits dateKey0) habits.length
          ≤ 1 / 2) ∧
    ((HeatmapView.intensity logs habits dateKey0).level = 3 ↔
      1 / 2 < HeatmapView.ratio (HeatmapView.intensity logs habits dateKey0) habits.length ∧
        HeatmapView.ratio (HeatmapView.intensity logs habits dateKey0) habits.length
          ≤ 3 / 4) ∧
    ((HeatmapView.intensity logs habits dateKey0).level = 4 ↔
      3 / 4 < HeatmapView.ratio (HeatmapView.intensity logs habits dateKey0) habits.length ∧
        HeatmapView.ratio (HeatmapView.intensity logs habits dateKey0) habits.length
          ≤ 1) ∧
    (HeatmapView.intensity logs [] dateKey0).level = 0 ∧
    HeatmapView.intensity logsMarch1 [morningJog, read30] (dateKey 2024 3 1)
      = { level := 2, count := 1 } := by
  have h := HeatmapView.level_by_ratio (HeatmapView.completedCount logs habits dateKey0)
    habits.length (HeatmapView.completedCount_le_length logs habits dateKey0)
  refine ⟨h.1, h.2.1, h.2.2.1, h.2.2.2.1, h.2.2.2.2, ?_, ?_⟩
  · simp [HeatmapView.intensity, HeatmapView.level]
  · have hc : HeatmapView.completedCount logsMarch1 [morningJog, read30] (dateKey 2024 3 1)
        = 1 := by decide
    simp only [HeatmapView.intensity, hc]
    norm_num [HeatmapView.level]

/-! ## C10: the daily trend series -/

theorem endOfMonth_sub_startOfMonth (date : LocalDate) :
    endOfMonth date + 1 - startOfMonth date = (daysInMonth date.fullYear date.month : Int) := by
  obtain ⟨y, ⟨m, hm⟩⟩ := date
  simp only [endOfMonth, startOfMonth, MakeDay, daysInMonth, InLeapYear, DaysInYear,
    DayFromYear, monthStart]
  interval_cases m <;> simp <;> split_ifs <;> omega

theorem startOfMonth_add (date : LocalDate) (i : Int) :
    startOfMonth date + i = dateKey date.fullYear ((date.month.val : Int) + 1) (i + 1) := by
  simp only [startOfMonth, dateKey, MakeDay]
  have h : (date.month.val : Int) + 1 - 1 = (date.month.val : Int) := by omega
  rw [h]
  omega

/-- The days of the reference month, as `eachDayOfInterval` lists them. -/
theorem eachDayOfInterval_month (date : LocalDate) :
    eachDayOfInterval (startOfMonth date) (endOfMonth date)
      = (List.range (daysInMonth date.fullYear date.month)).map
          (fun (i : Nat) =>
            dateKey date.fullYear ((date.month.val : Int) + 1) ((i : Int) + 1)) := by
  unfold eachDayOfInterval
  rw [endOfMonth_sub_startOfMonth, Int.toNat_ofNat]
  apply List.map_congr_left
  intro i _
  exact startOfMonth_add date i

/-- With 40 habits and 23 completions on 2023-04-01, the first entry of `trendData` for April
2023 counts 23 and has percentage 57. -/
theorem trendData_tie_head :
    (Dashboard.trendData tieLogs fortyHabits april2023).head?
      = some { fullDate := dateKey 2023 4 1, count := 23, percentage := 57 } := by
  have hcount : Dashboard.completedCount tieLogs (dateKey 2023 4 1) = 23 := by decide
  have hlen : fortyHabits.length = 40 := by decide
  have hhead : (eachDayOfInterval (startOfMonth april2023) (endOfMonth april2023)).head?
      = some (dateKey 2023 4 1) := by decide
  unfold Dashboard.trendData
  simp only []
  rw [List.head?_map, hhead, Option.map_some', hcount, hlen, if_pos (by decide),
    numMul_numDiv_23_40, mathRound_57]

/-- The exact value 57.5 of `23 / 40 * 100` and of `69 / 120 * 100` rounds to 58 also when a
tie goes to the even neighbour. -/
theorem roundHalfEven_tie : roundHalfEven (115 / 2) = 58 := by
  have hf : ⌊(115 / 2 : ℚ)⌋ = 57 := by
    rw [Int.floor_eq_iff]
    constructor <;> norm_num
  unfold roundHalfEven
  simp only []
  rw [hf]
  norm_num

/-- C10 (as stated, refuted): with 40 habits and 23 completions on 2023-04-01, the entry of
`trendData` for that day has percentage 57; the exact value of `23 / 40 * 100` is 57.5, which
rounds to 58 (also with a tie going to the even neighbour). The Number `(23 / 40) * 100` is
57.49999999999999. -/
theorem trendData_percentage_below_round :
    fortyHabits.length = 40 ∧
    (Dashboard.trendData tieLogs fortyHabits april2023).head?
      = some { fullDate := dateKey 2023 4 1, count := 23, percentage := 57 } ∧
    ((23 : Nat) : ℚ) / ((40 : Nat) : ℚ) * 100 = 115 / 2 ∧
    roundedPercentage 23 40 = 58 ∧
    roundHalfEven (((23 : Nat) : ℚ) / ((40 : Nat) : ℚ) * 100) = 58 := by
  have h : (((23 : Nat) : ℚ) / ((40 : Nat) : ℚ) * 100) = 115 / 2 := by norm_num
  refine ⟨by decide, trendData_tie_head, h, ?_, ?_⟩
  · rw [roundedPercentage_eq _ _ (by decide)]
    decide
  · rw [h]
    exact roundHalfEven_tie

/-- C10 (amended): `trendData` has exactly one entry for each calendar day of the reference
month, from the first to the last in ascending order (day `i + 1` of the month at position
`i`); each entry holds the dashboard's completed count of its day; its percentage is `0`
without habits; with habits and a count of at most `2 ^ 43` it is the exact rounding of
`count / habits.length * 100`, or one less when that value is exactly half-way between two
integers; it is the exact rounding whenever the number of habits is not a multiple of 8. -/
theorem trendData_days_and_percentages (logs : Logs) (habits : List Habit)
    (currentDate : LocalDate) :
    (Dashboard.trendData logs habits currentDate).map (fun e => e.fullDate)
      = (List.range (daysInMonth currentDate.fullYear currentDate.month)).map
          (fun (i : Nat) => dateKey currentDate.fullYear ((currentDate.month.val : Int) + 1)
            ((i : Int) + 1)) ∧
    ∀ e ∈ Dashboard.trendData logs habits currentDate,
      e.count = Dashboard.completedCount logs e.fullDate ∧
      (habits.length = 0 → e.percentage = 0) ∧
      (0 < habits.length → e.count ≤ 2 ^ 43 →
        (e.percentage = roundedPercentage e.count habits.length ∨
          (e.percentage = roundedPercentage e.count habits.length - 1 ∧
            (e.count : ℚ) / (habits.length : ℚ) * 100 + 1 / 2
              = (roundedPercentage e.count habits.length : ℚ))) ∧
        (¬ 8 ∣ habits.length → e.percentage = roundedPercentage e.count habits.length)) := by
  constructor
  · rw [← eachDayOfInterval_month]
    simp only [Dashboard.trendData, List.map_map]
    exact (List.map_congr_left (fun _ _ => rfl)).trans (List.map_id _)
  · intro e he
    simp only [Dashboard.trendData, List.mem_map] at he
    obtain ⟨day, _, rfl⟩ := he
    refine ⟨rfl, ?_, ?_⟩
    · intro h0
      simp only []
      rw [if_neg (by omega)]
    · intro hpos hc
      simp only [] at hc ⊢
      rw [if_pos hpos]
      exact ⟨mathRound_percentage _ _ hpos hc,
        fun h8 => mathRound_percentage_exact _ _ hpos hc h8⟩

/-- C10 (amended) on the day with 23 of 40 habits completed: the percentage 57 is one less
than the exact rounding 58, at the exact tie 57.5. -/
theorem trendData_days_and_percentages_witness :
    (57 : Int) = roundedPercentage 23 fortyHabits.length ∨
      ((57 : Int) = roundedPercentage 23 fortyHabits.length - 1 ∧
        ((23 : Nat) : ℚ) / (fortyHabits.length : ℚ) * 100 + 1 / 2
          = (roundedPercentage 23 fortyHabits.length : ℚ)) :=
  (((trendData_days_and_percentages tieLogs fortyHabits april2023).2 _
    (List.mem_of_mem_head? trendData_tie_head)).2.2 (by decide) (by decide)).1

/-! ## C11: monthly completion statistics -/

theorem foldl_add_eq_sum {α : Type} (f : α → Nat) (l : List α) (a : Nat) :
    l.foldl (fun acc x => acc + f x) a = a + (l.map f).sum := by
  induction l generalizing a with
  | nil => simp
  | cons x l ih =>
    simp only [List.foldl_cons, List.map_cons, List.sum_cons]
    rw [ih]
    omega

/-- With four habits and 69 completions in April 2023, `completionStats` returns 69 of 120
and 57 percent. -/
theorem Dashboard.completionStats_april :
    Dashboard.completionStats aprilLogs fourHabits april2023
      = { totalCompleted := 69, totalPossible := 120, percentage := 57 } := by
  have hp := Dashboard.completionStats_percentage aprilLogs fourHabits april2023
  have hc : (Dashboard.completionStats aprilLogs fourHabits april2023).totalCompleted
      = 69 := by decide
  have ht : (Dashboard.completionStats aprilLogs fourHabits april2023).totalPossible
      = 120 := by decide
  rw [hc, ht, if_neg (by decide), numMul_numDiv_69_120, mathRound_57] at hp
  rcases hstats : Dashboard.completionStats aprilLogs fourHabits april2023
    with ⟨tc, tp, pc⟩
  rw [hstats] at hc ht hp
  simp only at hc ht hp
  rw [hc, ht, hp]

/-- C11 (as stated, refuted): with four habits and 69 completions in April 2023,
`completionStats` returns 69 of 120 and 57 percent; the exact value of `69 / 120 * 100` is
57.5, which rounds to 58 (also with a tie going to the even neighbour). -/
theorem completionStats_percentage_below_round :
    Dashboard.completionStats aprilLogs fourHabits april2023
      = { totalCompleted := 69, totalPossible := 120, percentage := 57 } ∧
    ((69 : Nat) : ℚ) / ((120 : Nat) : ℚ) * 100 = 115 / 2 ∧
    roundedPercentage 69 120 = 58 ∧
    roundHalfEven (((69 : Nat) : ℚ) / ((120 : Nat) : ℚ) * 100) = 58 := by
  have h : (((69 : Nat) : ℚ) / ((120 : Nat) : ℚ) * 100) = 115 / 2 := by norm_num
  refine ⟨Dashboard.completionStats_april, h, ?_, ?_⟩
  · rw [roundedPercentage_eq _ _ (by decide)]
    decide
  · rw [h]
    exact roundHalfEven_tie

/-- C11 (amended): `totalCompleted` is the sum of the counts of the trend series,
`totalPossible` is the number of days of the month times the number of habits, and
`percentage` is `0` when `totalPossible` is `0`; otherwise, with `totalCompleted` at most
`2 ^ 43`, it is the exact rounding of `totalCompleted / totalPossible * 100`, or one less when
that value is exactly half-way between two integers; it is the exact rounding whenever
`totalPossible` is not a multiple of 8. -/
theorem completionStats_totals (logs : Logs) (habits : List Habit) (currentDate : LocalDate) :
    (Dashboard.completionStats logs habits currentDate).totalCompleted
      = ((Dashboard.trendData logs habits currentDate).map (fun e => e.count)).sum ∧
    (Dashboard.completionStats logs habits currentDate).totalPossible
      = daysInMonth currentDate.fullYear currentDate.month * habits.length ∧
    ((Dashboard.completionStats logs habits currentDate).totalPossible = 0 →
      (Dashboard.completionStats logs habits currentDate).percentage = 0) ∧
    (0 < (Dashboard.completionStats logs habits currentDate).totalPossible →
      (Dashboard.completionStats logs habits currentDate).totalCompleted ≤ 2 ^ 43 →
      ((Dashboard.completionStats logs habits currentDate).percentage
          = roundedPercentage (Dashboard.completionStats logs habits currentDate).totalCompleted
              (Dashboard.completionStats logs habits currentDate).totalPossible ∨
        ((Dashboard.completionStats logs habits currentDate).percentage
            = roundedPercentage (Dashboard.completionStats logs habits currentDate).totalCompleted
                (Dashboard.completionStats logs habits currentDate).totalPossible - 1 ∧
          ((Dashboard.completionStats logs habits currentDate).totalCompleted : ℚ)
              / ((Dashboard.completionStats logs habits currentDate).totalPossible : ℚ) * 100
              + 1 / 2
            = (roundedPercentage
                (Dashboard.completionStats logs habits currentDate).totalCompleted
                (Dashboard.completionStats logs habits currentDate).totalPossible : ℚ))) ∧
      (¬ 8 ∣ (Dashboard.completionStats logs habits currentDate).totalPossible →
        (Dashboard.completionStats logs habits currentDate).percentage
          = roundedPercentage (Dashboard.completionStats logs habits currentDate).totalCompleted
              (Dashboard.completionStats logs habits currentDate).totalPossible)) := by
  refine ⟨?_, ?_, ?_, ?_⟩
  · simp only [Dashboard.completionStats, Dashboard.trendData, List.map_map]
    rw [foldl_add_eq_sum, Nat.zero_add]
    rfl
  · simp only [Dashboard.completionStats]
    rw [eachDayOfInterval_month, List.length_map, List.length_range]
  · intro h0
    rw [Dashboard.completionStats_percentage, if_pos h0]
  · intro hpos hc
    rw [Dashboard.completionStats_percentage, if_neg (by omega)]
    exact ⟨mathRound_percentage _ _ hpos hc,
      fun h8 => mathRound_percentage_exact _ _ hpos hc h8⟩

/-- C11 (amended) on April 2023 with four habits and 69 completions: the percentage 57 is
one less than the exact rounding 58, at the exact tie 57.5. -/
theorem completionStats_totals_witness :
    (57 : Int) = roundedPercentage 69 120 ∨
      ((57 : Int) = roundedPercentage 69 120 - 1 ∧
        ((69 : Nat) : ℚ) / ((120 : Nat) : ℚ) * 100 + 1 / 2
          = (roundedPercentage 69 120 : ℚ)) := by
  have h := ((completionStats_totals aprilLogs fourHabits april2023).2.2.2
    (by decide) (by decide)).1
  rw [Dashboard.completionStats_april] at h
  exact h

/-! ## Lemmas on `Obj.set` -/

theorem Obj.ext_entries {κ ν : Type} {a b : Obj κ ν} (h : a.entries = b.entries) : a = b := by
  cases a
  cases b
  simp only at h
  subst h
  rfl

theorem Obj.find_setEntries_self {κ ν : Type} [DecidableEq κ] (k : κ) (v : ν)
    (l : List (κ × ν)) :
    ((Obj.setEntries k v l).find? (fun e => decide (e.1 = k))).map Prod.snd = some v := by
  induction l with
  | nil => simp [Obj.setEntries]
  | cons e es ih =>
    by_cases hk : e.1 = k
    · simp [Obj.setEntries, hk]
    · simp only [Obj.setEntries, if_neg hk, List.find?_cons]
      simp only [hk, decide_False]
      exact ih

theorem Obj.find_setEntries_other {κ ν : Type} [DecidableEq κ] (k k1 : κ) (v : ν)
    (hne : k1 ≠ k) (l : List (κ × ν)) :
    ((Obj.setEntries k v l).find? (fun e => decide (e.1 = k1))).map Prod.snd
      = (l.find? (fun e => decide (e.1 = k1))).map Prod.snd := by
  induction l with
  | nil =>
    have : ¬ k = k1 := fun h => hne h.symm
    simp [Obj.setEntries, this]
  | cons e es ih =>
    by_cases hk : e.1 = k
    · have h1 : ¬ e.1 = k1 := fun h => hne (h.symm.trans hk)
      have h2 : ¬ k = k1 := fun h => hne h.symm
      simp [Obj.setEntries, hk, List.find?_cons, h1, h2]
    · simp only [Obj.setEntries, if_neg hk, List.find?_cons]
      by_cases h1 : e.1 = k1
      · simp [h1]
      · simp only [h1, decide_False]
        exact ih

theorem Obj.get?_set_self {κ ν : Type} [DecidableEq κ] (o : Obj κ ν) (k : κ) (v : ν) :
    (o.set k v).get? k = some v :=
  Obj.find_setEntries_self k v o.entries

theorem Obj.get?_set_other {κ ν : Type} [DecidableEq κ] (o : Obj κ ν) (k k1 : κ) (v : ν)
    (hne : k1 ≠ k) : (o.set k v).get? k1 = o.get? k1 :=
  Obj.find_setEntries_other k k1 v hne o.entries

theorem Obj.setEntries_setEntries {κ ν : Type} [DecidableEq κ] (k : κ) (v w : ν)
    (l : List (κ × ν)) :
    Obj.setEntries k w (Obj.setEntries k v l) = Obj.setEntries k w l := by
  induction l with
  | nil => simp [Obj.setEntries]
  | cons e es ih =>
    by_cases hk : e.1 = k
    · simp [Obj.setEntries, hk]
    · simp [Obj.setEntries, hk, ih]

theorem Obj.set_set {κ ν : Type} [DecidableEq κ] (o : Obj κ ν) (k : κ) (v w : ν) :
    (o.set k v).set k w = o.set k w :=
  Obj.ext_entries (Obj.setEntries_setEntries k v w o.entries)

theorem Obj.setEntries_eq_self {κ ν : Type} [DecidableEq κ] (k : κ) (v : ν)
    (l : List (κ × ν))
    (h : (l.find? (fun e => decide (e.1 = k))).map Prod.snd = some v) :
    Obj.setEntries k v l = l := by
  induction l with
  | nil => simp at h
  | cons e es ih =>
    by_cases hk : e.1 = k
    · simp only [List.find?_cons, hk, decide_True, Option.map_some', Option.some.injEq] at h
      simp only [Obj.setEntries, if_pos hk]
      rw [← hk, ← h]
    · simp only [List.find?_cons, hk, decide_False] at h
      simp only [Obj.setEntries, if_neg hk]
      rw [ih h]

theorem Obj.set_eq_self {κ ν : Type} [DecidableEq κ] (o : Obj κ ν) (k : κ) (v : ν)
    (h : o.get? k = some v) : o.set k v = o :=
  Obj.ext_entries (Obj.setEntries_eq_self k v o.entries h)

theorem isChecked_eq_entry (logs : Logs) (date : Int) (id : HabitId) :
    isChecked logs date id = (entry logs date id).getD false := by
  unfold isChecked entry
  rcases logs.get? date with _ | dayLogs <;> rfl

/-! ## C12 and C13: toggling a completion -/

theorem entry_toggleHabit_self (logs : Logs) (habitId : HabitId) (date : Int) :
    entry (toggleHabit habitId date logs) date habitId
      = some (!((entry logs date habitId).getD false)) := by
  unfold toggleHabit entry
  simp only []
  rw [Obj.get?_set_self, Option.some_bind, Obj.get?_set_self]
  rcases logs.get? date with _ | dayLogs <;> rfl

theorem entry_toggleHabit_other (logs : Logs) (habitId : HabitId) (date : Int)
    (d : Int) (h : HabitId) (hne : (d, h) ≠ (date, habitId)) :
    entry (toggleHabit habitId date logs) d h = entry logs d h := by
  unfold toggleHabit entry
  simp only []
  by_cases hd : d = date
  · subst hd
    have hh : h ≠ habitId := fun heq => hne (by rw [heq])
    rw [Obj.get?_set_self, Option.some_bind, Obj.get?_set_other _ _ _ _ hh]
    rcases logs.get? d with _ | dayLogs <;> rfl
  · rw [Obj.get?_set_other _ _ _ _ hd]

/-- C12: for every log, habit id (known or not) and date key, `toggleHabit` makes the
completion of that pair the negation of its previous value, an absent entry becoming
`true`, and leaves the completion of every other (day, habit) pair unchanged. -/
theorem toggleHabit_flips_one_entry (logs : Logs) (habitId : HabitId) (date : Int) :
    entry (toggleHabit habitId date logs) date habitId
      = some (!((entry logs date habitId).getD false)) ∧
    isChecked (toggleHabit habitId date logs) date habitId = !isChecked logs date habitId ∧
    (entry logs date habitId = none →
      entry (toggleHabit habitId date logs) date habitId = some true) ∧
    (∀ d h, (d, h) ≠ (date, habitId) →
      entry (toggleHabit habitId date logs) d h = entry logs d h ∧
      isChecked (toggleHabit habitId date logs) d h = isChecked logs d h) := by
  refine ⟨entry_toggleHabit_self logs habitId date, ?_, ?_, ?_⟩
  · rw [isChecked_eq_entry, isChecked_eq_entry, entry_toggleHabit_self]
    rfl
  · intro hnone
    rw [entry_toggleHabit_self, hnone]
    rfl
  · intro d h hne
    refine ⟨entry_toggleHabit_other logs habitId date d h hne, ?_⟩
    rw [isChecked_eq_entry, isChecked_eq_entry, entry_toggleHabit_other logs habitId date d h hne]

/-- C13 (as stated, refuted): toggling twice on the empty log leaves the entry
`{ [date]: { [habitId]: false } }` behind, so the log is not the original one. -/
theorem toggleHabit_twice_not_identity :
    ¬ ∀ (logs : Logs) (habitId : HabitId) (date : Int),
        toggleHabit habitId date (toggleHabit habitId date logs) = logs := by
  intro h
  have h1 := congrArg (fun o : Logs => o.entries.length) (h Obj.empty 1 (dateKey 2024 1 9))
  revert h1
  decide

/-- C13 (amended): toggling the same pair twice restores the completion of every
(day, habit) pair, and it restores the log itself whenever the log already had an entry
for the toggled pair. -/
theorem toggleHabit_twice (logs : Logs) (habitId : HabitId) (date : Int) :
    (∀ d h, isChecked (toggleHabit habitId date (toggleHabit habitId date logs)) d h
      = isChecked logs d h) ∧
    (entry logs date habitId ≠ none →
      toggleHabit habitId date (toggleHabit habitId date logs) = logs) := by
  constructor
  · intro d h
    by_cases hp : (d, h) = (date, habitId)
    · obtain ⟨rfl, rfl⟩ := Prod.mk.inj hp
      rw [isChecked_eq_entry, isChecked_eq_entry, entry_toggleHabit_self,
        entry_toggleHabit_self]
      simp
    · rw [isChecked_eq_entry, isChecked_eq_entry, entry_toggleHabit_other _ _ _ _ _ hp,
        entry_toggleHabit_other _ _ _ _ _ hp]
  · intro hpresent
    unfold entry at hpresent
    rcases hday : logs.get? date with _ | dayLogs
    · rw [hday] at hpresent
      exact absurd rfl hpresent
    · rw [hday] at hpresent
      simp only [Option.some_bind] at hpresent
      rcases hval : dayLogs.get? habitId with _ | b
      · exact absurd hval hpresent
      · unfold toggleHabit
        simp only []
        rw [Obj.get?_set_self, hday]
        simp only [Option.getD_some]
        rw [Obj.get?_set_self, hval]
        simp only [Option.getD_some, Bool.not_not]
        rw [Obj.set_set, Obj.set_set, Obj.set_eq_self dayLogs habitId b hval,
          Obj.set_eq_self logs date dayLogs hday]

/-- C13 (amended) on the January log, where habit 1 has an entry on 2024-01-09: two toggles
give the log back. -/
theorem toggleHabit_twice_witness :
    toggleHabit 1 (dateKey 2024 1 9) (toggleHabit 1 (dateKey 2024 1 9) januaryLogs)
      = januaryLogs :=
  (toggleHabit_twice januaryLogs 1 (dateKey 2024 1 9)).2 (by decide)

/-! ## C15: steps of the growth score -/

theorem Dashboard.forestSizeOf_eq (t h : Nat) :
    Dashboard.forestSizeOf t h = ((t / 5 : Nat) : Int) + ((h / 3 : Nat) : Int) := by
  unfold Dashboard.forestSizeOf
  have h5 : (5 : ℚ) = ((5 : Nat) : ℚ) := by norm_num
  have h3 : (3 : ℚ) = ((3 : Nat) : ℚ) := by norm_num
  rw [h5, h3, Rat.floor_natCast_div_natCast, Rat.floor_natCast_div_natCast]
  push_cast
  rfl

/-- C15 (as stated, refuted): the score is not strictly increasing; one more completed task
or one more Happy mood can leave it unchanged (0 and 1 completed tasks both give 0). -/
theorem forestSize_not_strictly_increasing :
    (¬ ∀ t t1 h : Nat, t < t1 → Dashboard.forestSizeOf t h < Dashboard.forestSizeOf t1 h) ∧
    (¬ ∀ t h h1 : Nat, h < h1 → Dashboard.forestSizeOf t h < Dashboard.forestSizeOf t h1) := by
  constructor
  · intro hall
    have := hall 0 1 0 (by decide)
    rw [Dashboard.forestSizeOf_eq, Dashboard.forestSizeOf_eq] at this
    revert this
    decide
  · intro hall
    have := hall 0 0 1 (by decide)
    rw [Dashboard.forestSizeOf_eq, Dashboard.forestSizeOf_eq] at this
    revert this
    decide

/-- C15 (amended): the score never decreases when a monthly total grows, and it strictly
increases when `totalCompleted` grows by at least 5 or the number of Happy moods by at
least 3. -/
theorem forestSize_increases_by_steps (t t1 h h1 : Nat) (ht : t + 5 ≤ t1) (hh : h + 3 ≤ h1) :
    Dashboard.forestSizeOf t h < Dashboard.forestSizeOf t1 h ∧
    Dashboard.forestSizeOf t h < Dashboard.forestSizeOf t h1 ∧
    (∀ a b c : Nat, a ≤ b → Dashboard.forestSizeOf a c ≤ Dashboard.forestSizeOf b c) ∧
    (∀ a b c : Nat, b ≤ c → Dashboard.forestSizeOf a b ≤ Dashboard.forestSizeOf a c) := by
  refine ⟨?_, ?_, ?_, ?_⟩
  · rw [Dashboard.forestSizeOf_eq, Dashboard.forestSizeOf_eq]
    omega
  · rw [Dashboard.forestSizeOf_eq, Dashboard.forestSizeOf_eq]
    omega
  · intro a b c hab
    rw [Dashboard.forestSizeOf_eq, Dashboard.forestSizeOf_eq]
    omega
  · intro a b c hbc
    rw [Dashboard.forestSizeOf_eq, Dashboard.forestSizeOf_eq]
    omega

/-- C15 (amended) at 4 and 9 completed tasks, 2 and 5 Happy moods: the score rises. -/
theorem forestSize_increases_by_steps_witness :
    Dashboard.forestSizeOf 4 2 < Dashboard.forestSizeOf 9 2 ∧
      Dashboard.forestSizeOf 4 2 < Dashboard.forestSizeOf 4 5 :=
  ⟨(forestSize_increases_by_steps 4 9 2 5 (by decide) (by decide)).1,
    (forestSize_increases_by_steps 4 9 2 5 (by decide) (by decide)).2.1⟩

/-! ## C16: the mood histogram -/

theorem daysOfMonth_eq (date : LocalDate) :
    eachDayOfInterval (startOfMonth date) (endOfMonth date) = daysOfMonth date :=
  eachDayOfInterval_month date

theorem moodStep_get_same (counts : Obj String JsCount) (label : String) (hne : label ≠ "")
    (hproto : label ∉ objectPrototypeKeys) :
    (Dashboard.moodStep counts (some label)).get? label
      = match counts.get? label with
        | some (JsCount.number n) => some (JsCount.number (n + 1))
        | some JsCount.text => some JsCount.text
        | none => some (JsCount.number 1) := by
  have hnp : ¬ label = "__proto__" := by
    intro h
    apply hproto
    rw [h]
    decide
  unfold Dashboard.moodStep
  simp only [if_neg hne, if_neg hnp]
  rcases hc : counts.get? label with _ | c
  · simp only [if_neg hproto]
    exact Obj.get?_set_self _ _ _
  · cases c with
    | number n => exact Obj.get?_set_self _ _ _
    | text => exact Obj.get?_set_self _ _ _

theorem moodStep_get_other (counts : Obj String JsCount) (m label : String) (hml : m ≠ label) :
    (Dashboard.moodStep counts (some m)).get? label = counts.get? label := by
  have hlm : label ≠ m := fun h => hml h.symm
  unfold Dashboard.moodStep
  simp only []
  by_cases h1 : m = ""
  · rw [if_pos h1]
  · rw [if_neg h1]
    by_cases h2 : m = "__proto__"
    · rw [if_pos h2]
    · rw [if_neg h2]
      rcases hc : counts.get? m with _ | c
      · simp only []
        by_cases h3 : m ∈ objectPrototypeKeys
        · rw [if_pos h3]
          exact Obj.get?_set_other _ _ _ _ hlm
        · rw [if_neg h3]
          exact Obj.get?_set_other _ _ _ _ hlm
      · cases c with
        | number n => exact Obj.get?_set_other _ _ _ _ hlm
        | text => exact Obj.get?_set_other _ _ _ _ hlm

/-- The entry of a label after the histogram loop has run over `days`, in terms of the entry
before: the label is neither empty nor a property name of `Object.prototype`. -/
theorem moodStep_foldl_get (moods : MoodLog) (label : String) (hne : label ≠ "")
    (hproto : label ∉ objectPrototypeKeys) :
    ∀ (days : List Int) (counts : Obj String JsCount),
      (days.foldl (fun counts day => Dashboard.moodStep counts (moods.get? day)) counts).get?
          label
        = match counts.get? label with
          | some (JsCount.number n) =>
            some (JsCount.number
              (n + (days.filter (fun day => decide (moods.get? day = some label))).length))
          | some JsCount.text => some JsCount.text
          | none =>
            if (days.filter (fun day => decide (moods.get? day = some label))).length = 0
            then none
            else some (JsCount.number
              (days.filter (fun day => decide (moods.get? day = some label))).length) := by
  intro days
  induction days with
  | nil =>
    intro counts
    simp only [List.foldl_nil, List.filter_nil, List.length_nil, Nat.add_zero, if_true]
    rcases counts.get? label with _ | c
    · rfl
    · cases c <;> rfl
  | cons day days ih =>
    intro counts
    rw [List.foldl_cons, ih]
    by_cases hday : moods.get? day = some label
    · have hcnt : ((day :: days).filter (fun day => decide (moods.get? day = some label))).length
          = (days.filter (fun day => decide (moods.get? day = some label))).length + 1 := by
        simp [List.filter_cons, hday]
      rw [hcnt, hday, moodStep_get_same counts label hne hproto]
      rcases counts.get? label with _ | c
      · simp only []
        rw [if_neg (Nat.succ_ne_zero _), Nat.add_comm]
      · cases c with
        | number n =>
          simp only []
          rw [Nat.add_assoc, Nat.add_comm 1]
        | text => rfl
    · have hcnt : ((day :: days).filter (fun day => decide (moods.get? day = some label))).length
          = (days.filter (fun day => decide (moods.get? day = some label))).length := by
        simp [List.filter_cons, hday]
      have hstep : (Dashboard.moodStep counts (moods.get? day)).get? label
          = counts.get? label := by
        rcases hm : moods.get? day with _ | m
        · rfl
        · apply moodStep_get_other
          intro h
          apply hday
          rw [hm, h]
      rw [hcnt, hstep]

theorem sum_setEntries_none {g : JsCount → Nat} (k : String) (v : JsCount) :
    ∀ l : List (String × JsCount),
      (l.find? (fun e => decide (e.1 = k))).map Prod.snd = none →
      ((Obj.setEntries k v l).map (fun e => g e.2)).sum = (l.map (fun e => g e.2)).sum + g v := by
  intro l
  induction l with
  | nil => intro _; simp [Obj.setEntries]
  | cons e es ih =>
    intro h
    by_cases hk : e.1 = k
    · simp [List.find?_cons, hk] at h
    · simp only [List.find?_cons, hk, decide_False] at h
      simp only [Obj.setEntries, if_neg hk, List.map_cons, List.sum_cons, ih h]
      omega

theorem sum_setEntries_some {g : JsCount → Nat} (k : String) (v old : JsCount) :
    ∀ l : List (String × JsCount),
      (l.find? (fun e => decide (e.1 = k))).map Prod.snd = some old →
      ((Obj.setEntries k v l).map (fun e => g e.2)).sum + g old
        = (l.map (fun e => g e.2)).sum + g v := by
  intro l
  induction l with
  | nil => intro h; simp at h
  | cons e es ih =>
    intro h
    by_cases hk : e.1 = k
    · simp only [List.find?_cons, hk, decide_True, Option.map_some', Option.some.injEq] at h
      simp only [Obj.setEntries, if_pos hk, List.map_cons, List.sum_cons, h]
      omega
    · simp only [List.find?_cons, hk, decide_False] at h
      have := ih h
      simp only [Obj.setEntries, if_neg hk, List.map_cons, List.sum_cons]
      omega

theorem numericTotal_set_none (counts : Obj String JsCount) (k : String) (v : JsCount)
    (h : counts.get? k = none) :
    numericTotal (counts.set k v) = numericTotal counts + v.value :=
  sum_setEntries_none (g := JsCount.value) k v counts.entries h

theorem numericTotal_set_some (counts : Obj String JsCount) (k : String) (v old : JsCount)
    (h : counts.get? k = some old) :
    numericTotal (counts.set k v) + old.value = numericTotal counts + v.value :=
  sum_setEntries_some (g := JsCount.value) k v old counts.entries h

theorem numericTotal_moodStep (counts : Obj String JsCount) (mood : Option String) :
    numericTotal (Dashboard.moodStep counts mood) ≤ numericTotal counts + 1 := by
  unfold Dashboard.moodStep
  rcases mood with _ | m
  · exact Nat.le_add_right _ _
  · simp only []
    by_cases h1 : m = ""
    · rw [if_pos h1]
      exact Nat.le_add_right _ _
    · rw [if_neg h1]
      by_cases h2 : m = "__proto__"
      · rw [if_pos h2]
        exact Nat.le_add_right _ _
      · rw [if_neg h2]
        rcases hc : counts.get? m with _ | c
        · simp only []
          by_cases h3 : m ∈ objectPrototypeKeys
          · rw [if_pos h3, numericTotal_set_none counts m _ hc]
            simp [JsCount.value]
          · rw [if_neg h3, numericTotal_set_none counts m _ hc]
            simp [JsCount.value]
        · cases c with
          | number n =>
            have := numericTotal_set_some counts m (JsCount.number (n + 1)) _ hc
            simp only [JsCount.value] at this
            simp only []
            omega
          | text =>
            have := numericTotal_set_some counts m JsCount.text _ hc
            simp only [JsCount.value] at this
            simp only []
            omega

theorem numericTotal_foldl (moods : MoodLog) :
    ∀ (days : List Int) (counts : Obj String JsCount),
      numericTotal (days.foldl (fun counts day => Dashboard.moodStep counts (moods.get? day))
        counts) ≤ numericTotal counts + days.length := by
  intro days
  induction days with
  | nil => intro counts; simp
  | cons day days ih =>
    intro counts
    rw [List.foldl_cons, List.length_cons]
    have h1 := ih (Dashboard.moodStep counts (moods.get? day))
    have h2 := numericTotal_moodStep counts (moods.get? day)
    omega

/-- C16 (as stated, refuted): with the empty label recorded on 1 March 2024, March has one
day whose recorded mood is the empty label, but `moodStats` has no entry for it:
`if (mood)` skips the empty string. -/
theorem moodStats_skips_empty_label :
    moodDayCount blankMoods march2024 "" = 1 ∧
      (Dashboard.moodStats blankMoods march2024).get? "" = none := by
  decide

/-- C16 (amended): for every label that is neither empty nor the name of a property of
`Object.prototype`, `moodStats[label]` is the number of days of the reference month whose
recorded mood is that label, with no entry when that number is 0; moods recorded on days
outside the month have no effect; the numbers stored in `moodStats` sum to at most the
number of days of the month. -/
theorem moodStats_counts_labels (moods : MoodLog) (currentDate : LocalDate) (label : String)
    (hne : label ≠ "") (hproto : label ∉ objectPrototypeKeys) :
    (Dashboard.moodStats moods currentDate).get? label
      = (if moodDayCount moods currentDate label = 0 then none
        else some (JsCount.number (moodDayCount moods currentDate label))) ∧
    (∀ moods1 : MoodLog,
      (∀ day ∈ daysOfMonth currentDate, moods1.get? day = moods.get? day) →
        Dashboard.moodStats moods1 currentDate = Dashboard.moodStats moods currentDate) ∧
    numericTotal (Dashboard.moodStats moods currentDate)
      ≤ daysInMonth currentDate.fullYear currentDate.month := by
  refine ⟨?_, ?_, ?_⟩
  · unfold Dashboard.moodStats moodDayCount
    simp only []
    rw [daysOfMonth_eq, moodStep_foldl_get moods label hne hproto]
    rfl
  · intro moods1 hsame
    unfold Dashboard.moodStats
    simp only []
    rw [daysOfMonth_eq]
    apply List.foldl_ext
    intro counts day hday
    rw [hsame day hday]
  · unfold Dashboard.moodStats
    simp only []
    have h := numericTotal_foldl moods (eachDayOfInterval (startOfMonth currentDate)
      (endOfMonth currentDate)) Obj.empty
    have hlen : (eachDayOfInterval (startOfMonth currentDate) (endOfMonth currentDate)).length
        = daysInMonth currentDate.fullYear currentDate.month := by
      rw [eachDayOfInterval_month, List.length_map, List.length_range]
    rw [hlen] at h
    have h0 : numericTotal (Obj.empty : Obj String JsCount) = 0 := rfl
    omega

/-- C16 (amended) on a March 2024 with Happy on the 1st and 3rd, the label Sleepy, which is
outside the fixed five, on the 2nd, and Happy on 1 April: Happy counts 2, Sleepy counts 1
under its own key, a label recorded on no day has no entry. -/
theorem moodStats_counts_labels_witness :
    (Dashboard.moodStats marchMoods march2024).get? "Sleepy" = some (JsCount.number 1) ∧
    (Dashboard.moodStats marchMoods march2024).get? "Happy" = some (JsCount.number 2) ∧
    (Dashboard.moodStats marchMoods march2024).get? "Stressed" = none :=
  ⟨(moodStats_counts_labels marchMoods march2024 "Sleepy" (by decide) (by decide)).1.trans
      (by decide),
    (moodStats_counts_labels marchMoods march2024 "Happy" (by decide) (by decide)).1.trans
      (by decide),
    (moodStats_counts_labels marchMoods march2024 "Stressed" (by decide) (by decide)).1.trans
      (by decide)⟩

/-- A label that names a property of `Object.prototype` is not counted: with `constructor`
recorded on one day, `moodStats.constructor` holds a text, not the number 1. -/
theorem moodStats_prototype_label :
    (Dashboard.moodStats constructorMoods march2024).get? "constructor"
      = some JsCount.text := by
  decide

/-! ## C14: the growth score of a month -/

/-- The value `moodStats['Happy'] || 0` is the number of days of the reference month whose
recorded mood is Happy. -/
theorem Dashboard.happyMoods_eq (moods : MoodLog) (currentDate : LocalDate) :
    Dashboard.happyMoods (Dashboard.moodStats moods currentDate)
      = moodDayCount moods currentDate "Happy" := by
  unfold Dashboard.happyMoods Dashboard.moodStats moodDayCount
  simp only []
  rw [daysOfMonth_eq, moodStep_foldl_get moods "Happy" (by decide) (by decide)]
  have h0 : (Obj.empty : Obj String JsCount).get? "Happy" = none := rfl
  rw [h0]
  simp only []
  by_cases hz : ((daysOfMonth currentDate).filter
      (fun day => decide (moods.get? day = some "Happy"))).length = 0
  · rw [if_pos hz, hz]
  · rw [if_neg hz]

/-- The total `completionStats.totalCompleted` is the sum, over the days of the reference
month, of the dashboard's completed count of the day. -/
theorem Dashboard.totalCompleted_eq (logs : Logs) (habits : List Habit)
    (currentDate : LocalDate) :
    (Dashboard.completionStats logs habits currentDate).totalCompleted
      = ((daysOfMonth currentDate).map (Dashboard.completedCount logs)).sum := by
  simp only [Dashboard.completionStats]
  rw [foldl_add_eq_sum, Nat.zero_add, daysOfMonth_eq]

/-- C14: the growth score is `floor(totalCompleted / 5) + floor(happyMoods / 3)`, an
integer that is never negative and never decreases when `totalCompleted` or the number of
Happy moods grows; in `forestSize` the first total is the number of completions logged on
the days of the reference month and the second is the number of days of the month whose
recorded mood is Happy. -/
theorem forestSize_nonneg_monotone (t h : Nat) :
    Dashboard.forestSizeOf t h = ((t / 5 : Nat) : Int) + ((h / 3 : Nat) : Int) ∧
    0 ≤ Dashboard.forestSizeOf t h ∧
    (∀ t1, t ≤ t1 → Dashboard.forestSizeOf t h ≤ Dashboard.forestSizeOf t1 h) ∧
    (∀ h1, h ≤ h1 → Dashboard.forestSizeOf t h ≤ Dashboard.forestSizeOf t h1) ∧
    (∀ (logs : Logs) (habits : List Habit) (moods : MoodLog) (currentDate : LocalDate),
      Dashboard.forestSize logs habits moods currentDate
        = Dashboard.forestSizeOf (Dashboard.completionStats logs habits currentDate).totalCompleted
            (Dashboard.happyMoods (Dashboard.moodStats moods currentDate)) ∧
      (Dashboard.completionStats logs habits currentDate).totalCompleted
        = ((daysOfMonth currentDate).map (Dashboard.completedCount logs)).sum ∧
      Dashboard.happyMoods (Dashboard.moodStats moods currentDate)
        = moodDayCount moods currentDate "Happy" ∧
      Dashboard.forestSize logs habits moods currentDate
        = ((((daysOfMonth currentDate).map (Dashboard.completedCount logs)).sum / 5 : Nat) : Int)
          + ((moodDayCount moods currentDate "Happy" / 3 : Nat) : Int)) := by
  refine ⟨Dashboard.forestSizeOf_eq t h, ?_, ?_, ?_, ?_⟩
  · rw [Dashboard.forestSizeOf_eq]
    omega
  · intro t1 ht
    rw [Dashboard.forestSizeOf_eq, Dashboard.forestSizeOf_eq]
    omega
  · intro h1 hh
    rw [Dashboard.forestSizeOf_eq, Dashboard.forestSizeOf_eq]
    omega
  · intro logs habits moods currentDate
    refine ⟨rfl, Dashboard.totalCompleted_eq logs habits currentDate,
      Dashboard.happyMoods_eq moods currentDate, ?_⟩
    unfold Dashboard.forestSize
    rw [Dashboard.totalCompleted_eq, Dashboard.happyMoods_eq, Dashboard.forestSizeOf_eq]

/-! ## C17: the days of the heatmap -/

theorem endOfYear_sub_startOfYear (date : LocalDate) :
    endOfYear date + 1 - startOfYear date = DaysInYear date.fullYear := by
  simp only [endOfYear, startOfYear, MakeDay, InLeapYear, DaysInYear, DayFromYear, monthStart]
  simp
  split_ifs <;> omega

theorem dateKey_december_31 (year : Int) :
    dateKey year 12 31 = dateKey year 1 1 + DaysInYear year - 1 := by
  simp only [dateKey, MakeDay, InLeapYear, DaysInYear, DayFromYear, monthStart]
  simp
  split_ifs <;> omega

/-- For a year outside 0..99 the heatmap lists the calendar days of that year, from
1 January to 31 December in order, 365 or 366 of them. -/
theorem HeatmapView.days_eq (year : Int) (hy : year < 0 ∨ 99 < year) :
    HeatmapView.days year = daysOfYear year := by
  have hnew : newDate year 0 = { fullYear := year, month := 0 } := by
    unfold newDate
    rw [if_neg (by omega)]
  unfold HeatmapView.days daysOfYear eachDayOfInterval
  simp only []
  rw [endOfYear_sub_startOfYear, hnew]
  rfl

/-- C17 (the code departs from the claim): for the year 20 the heatmap lists the days of
1920: its first key is 1920-01-01, its last key 1920-12-31, and 0020-01-01 is not among
its keys. `new Date(year, 0, 1)` reads a year from 0 to 99 as 1900 + year. -/
theorem heatmap_days_of_two_digit_year :
    ((HeatmapView.intensityMap februaryLogs [morningJog] 20).map Prod.fst).head?
      = some (dateKey 1920 1 1) ∧
    ((HeatmapView.intensityMap februaryLogs [morningJog] 20).map Prod.fst).getLast?
      = some (dateKey 1920 12 31) ∧
    dateKey 20 1 1 ∉ (HeatmapView.intensityMap februaryLogs [morningJog] 20).map Prod.fst := by
  decide

/-- Each entry of the heatmap holds the number of habits of the collection checked on its
day. -/
theorem HeatmapView.intensityMap_count (logs : Logs) (habits : List Habit) (year : Int) :
    ∀ e ∈ HeatmapView.intensityMap logs habits year,
      e.2.count = HabitGrid.totalCompleted logs habits e.1 := by
  intro e he
  simp only [HeatmapView.intensityMap, List.mem_map] at he
  obtain ⟨day, _, rfl⟩ := he
  exact HeatmapView.completedCount_eq_grid logs habits day

/-! ## C18: the level never decreases with the ratio -/

theorem HeatmapView.level_ge_iff (c n : Nat) :
    (1 ≤ HeatmapView.level c n ↔ 0 < (if n = 0 then (0 : ℚ) else (c : ℚ) / (n : ℚ))) ∧
    (2 ≤ HeatmapView.level c n ↔ 1 / 4 < (if n = 0 then (0 : ℚ) else (c : ℚ) / (n : ℚ))) ∧
    (3 ≤ HeatmapView.level c n ↔ 1 / 2 < (if n = 0 then (0 : ℚ) else (c : ℚ) / (n : ℚ))) ∧
    (4 ≤ HeatmapView.level c n ↔ 3 / 4 < (if n = 0 then (0 : ℚ) else (c : ℚ) / (n : ℚ))) ∧
    HeatmapView.level c n ≤ 4 := by
  by_cases hn : n = 0
  · subst hn
    norm_num [HeatmapView.level]
  · simp only [if_neg hn]
    have hnpos : (0 : ℚ) < (n : ℚ) := by exact_mod_cast Nat.pos_of_ne_zero hn
    by_cases hc : c = 0
    · subst hc
      norm_num [HeatmapView.level]
    · have hcpos : (0 : ℚ) < (c : ℚ) := by exact_mod_cast Nat.pos_of_ne_zero hc
      have hr : (0 : ℚ) < (c : ℚ) / (n : ℚ) := div_pos hcpos hnpos
      have hcond : n > 0 ∧ c > 0 := ⟨Nat.pos_of_ne_zero hn, Nat.pos_of_ne_zero hc⟩
      unfold HeatmapView.level
      rw [if_pos hcond]
      simp only []
      split_ifs with h1 h2 h3
      · refine ⟨?_, ?_, ?_, ?_, by omega⟩ <;> constructor <;> intro h <;>
          first
          | omega
          | linarith
      · refine ⟨?_, ?_, ?_, ?_, by omega⟩ <;> constructor <;> intro h <;>
          first
          | omega
          | linarith
      · refine ⟨?_, ?_, ?_, ?_, by omega⟩ <;> constructor <;> intro h <;>
          first
          | omega
          | linarith
      · refine ⟨?_, ?_, ?_, ?_, by omega⟩ <;> constructor <;> intro h <;>
          first
          | omega
          | linarith

/-- C18: for any two days, possibly under different logs and habit collections, if the
completion ratio of the first is at most that of the second, so is its level. -/
theorem heatmap_level_monotone (logs1 logs2 : Logs) (habits1 habits2 : List Habit)
    (day1 day2 : Int)
    (hratio : HeatmapView.ratio (HeatmapView.intensity logs1 habits1 day1) habits1.length
      ≤ HeatmapView.ratio (HeatmapView.intensity logs2 habits2 day2) habits2.length) :
    (HeatmapView.intensity logs1 habits1 day1).level
      ≤ (HeatmapView.intensity logs2 habits2 day2).level := by
  have h1 := HeatmapView.level_ge_iff (HeatmapView.completedCount logs1 habits1 day1)
    habits1.length
  have h2 := HeatmapView.level_ge_iff (HeatmapView.completedCount logs2 habits2 day2)
    habits2.length
  simp only [HeatmapView.ratio, HeatmapView.intensity] at hratio ⊢
  obtain ⟨a1, a2, a3, a4, a5⟩ := h1
  obtain ⟨b1, b2, b3, b4, _⟩ := h2
  by_contra hlt
  have hlt1 : HeatmapView.level (HeatmapView.completedCount logs2 habits2 day2) habits2.length
      < HeatmapView.level (HeatmapView.completedCount logs1 habits1 day1) habits1.length := by
    omega
  by_cases g1 : 1 ≤ HeatmapView.level (HeatmapView.completedCount logs2 habits2 day2)
      habits2.length
  · by_cases g2 : 2 ≤ HeatmapView.level (HeatmapView.completedCount logs2 habits2 day2)
        habits2.length
    · by_cases g3 : 3 ≤ HeatmapView.level (HeatmapView.completedCount logs2 habits2 day2)
          habits2.length
      · have g4 : ¬ 4 ≤ HeatmapView.level (HeatmapView.completedCount logs2 habits2 day2)
            habits2.length := by omega
        have := a4.mp (by omega)
        exact g4 (b4.mpr (lt_of_lt_of_le this hratio))
      · have := a3.mp (by omega)
        exact g3 (b3.mpr (lt_of_lt_of_le this hratio))
    · have := a2.mp (by omega)
      exact g2 (b2.mpr (lt_of_lt_of_le this hratio))
  · have := a1.mp (by omega)
    exact g1 (b1.mpr (lt_of_lt_of_le this hratio))

/-- C18 at two days: habits 1 and 2 with only 1 checked (ratio 1/2) against habit 1 alone
and checked (ratio 1). -/
theorem heatmap_level_monotone_witness :
    (HeatmapView.intensity logsMarch1 [morningJog, read30] (dateKey 2024 3 1)).level
      ≤ (HeatmapView.intensity februaryLogs [morningJog] (dateKey 2023 2 1)).level :=
  heatmap_level_monotone logsMarch1 februaryLogs [morningJog, read30] [morningJog]
    (dateKey 2024 3 1) (dateKey 2023 2 1)
    (by
      have hc1 : HeatmapView.completedCount logsMarch1 [morningJog, read30] (dateKey 2024 3 1)
          = 1 := by decide
      have hc2 : HeatmapView.completedCount februaryLogs [morningJog] (dateKey 2023 2 1)
          = 1 := by decide
      simp only [HeatmapView.ratio, HeatmapView.intensity, hc1, hc2]
      norm_num)

/-! ## C19: adding a habit -/

theorem colors_getD_mem (i : Nat) (hi : i < 5) : colors.getD i "undefined" ∈ colors := by
  interval_cases i <;> decide

/-- C19: when `Math.random()` returns a number of `[0, 1)`: if the name trimmed of white
space is empty, `addHabit` leaves the collection unchanged; otherwise the new collection
is the old one, in its order, followed by one habit with the clock reading as id, the
name as typed and a color of the palette. -/
theorem addHabit_appends (newHabitName : String) (now : Nat) (random : ℚ)
    (safeHabits : List Habit) (h0 : 0 ≤ random) (h1 : random < 1) :
    (trim newHabitName.toList = [] →
      addHabit newHabitName now random safeHabits = safeHabits) ∧
    (trim newHabitName.toList ≠ [] →
      ∃ color ∈ colors, addHabit newHabitName now random safeHabits
        = safeHabits ++ [{ id := now, name := newHabitName, color := color }]) := by
  constructor
  · intro hblank
    simp only [addHabit, if_pos hblank]
  · intro hname
    simp only [addHabit, if_neg hname]
    refine ⟨_, colors_getD_mem _ ?_, rfl⟩
    have hlen : ((colors.length : Nat) : ℚ) = 5 := by
      simp [colors]
    rw [hlen]
    have hfloor : ⌊random * 5⌋ < 5 := by
      apply Int.floor_lt.mpr
      push_cast
      linarith
    have hnonneg : 0 ≤ ⌊random * 5⌋ := by
      apply Int.floor_nonneg.mpr
      linarith
    omega

/-- C19 at the seed collection: a blank name changes nothing, `Yoga` is appended. -/
theorem addHabit_appends_witness :
    addHabit "  " 1700000000000 (1 / 2) seedHabits = seedHabits ∧
    ∃ color ∈ colors, addHabit "Yoga" 1700000000000 (1 / 2) seedHabits
      = seedHabits ++ [{ id := 1700000000000, name := "Yoga", color := color }] :=
  ⟨(addHabit_appends "  " 1700000000000 (1 / 2) seedHabits (by norm_num) (by norm_num)).1
      (by decide),
    (addHabit_appends "Yoga" 1700000000000 (1 / 2) seedHabits (by norm_num) (by norm_num)).2
      (by decide)⟩

/-! ## C20: uniqueness of habit ids -/

/-- C20 (as stated, refuted): two additions at the same clock reading give two habits with
the same id. -/
theorem habit_ids_not_unique_for_any_clock :
    ¬ ∀ ops : List HabitOp, ((runOps ops).map (fun h => h.id)).Nodup := by
  intro h
  have h1 := h sameClockOps
  revert h1
  decide

theorem addHabit_ids (newHabitName : String) (now : Nat) (random : ℚ) (habits : List Habit) :
    (addHabit newHabitName now random habits).map (fun h => h.id)
        = habits.map (fun h => h.id) ∨
      (addHabit newHabitName now random habits).map (fun h => h.id)
        = habits.map (fun h => h.id) ++ [now] := by
  unfold addHabit
  split_ifs
  · exact Or.inl rfl
  · right
    simp

theorem nodup_ids_foldl (ops : List HabitOp) :
    ∀ habits : List Habit, (habits.map (fun h => h.id)).Nodup → FreshClock habits ops →
      ((ops.foldl applyOp habits).map (fun h => h.id)).Nodup := by
  induction ops with
  | nil =>
    intro habits hnd _
    exact hnd
  | cons op ops ih =>
    intro habits hnd hfresh
    rw [List.foldl_cons]
    cases op with
    | add newHabitName now random =>
      simp only [FreshClock] at hfresh
      apply ih _ _ hfresh.2
      rcases addHabit_ids newHabitName now random habits with h | h
      · rw [h]
        exact hnd
      · rw [h]
        apply List.Nodup.append hnd (List.nodup_singleton now)
        intro x hx hx1
        rw [List.mem_singleton] at hx1
        subst hx1
        obtain ⟨hab, hmem, hid⟩ := List.mem_map.mp hx
        exact hfresh.1 hab hmem hid
    | delete id =>
      simp only [FreshClock] at hfresh
      apply ih _ _ hfresh
      exact hnd.sublist ((List.filter_sublist habits).map _)

/-- C20 (amended): starting from the seed collection, after any sequence of additions and
deletions in which every clock reading given to `addHabit` differs from the ids of the
habits then in the collection, no two habits share an id. -/
theorem habit_ids_unique (ops : List HabitOp) (hfresh : FreshClock seedHabits ops) :
    ((runOps ops).map (fun h => h.id)).Nodup :=
  nodup_ids_foldl ops seedHabits (by decide) hfresh

/-- C20 (amended) on an addition, a deletion and an addition a minute later. -/
theorem habit_ids_unique_witness :
    ((runOps freshClockOps).map (fun h => h.id)).Nodup :=
  habit_ids_unique freshClockOps (by
    simp only [freshClockOps, FreshClock]
    decide)

/-! ## C21: deleting a habit -/

/-- C21: a confirmed `deleteHabit(id)` keeps exactly the habits whose id differs from `id`,
in their original order, and leaves the completion log and the mood log unchanged; an
unconfirmed one changes nothing. -/
theorem deleteHabit_removes_only_the_habit (id : HabitId) (state : AppState) :
    (deleteHabit true id state).habits = state.habits.filter (fun h => h.id ≠ id) ∧
    (∀ h ∈ (deleteHabit true id state).habits, h.id ≠ id) ∧
    (deleteHabit true id state).habits.Sublist state.habits ∧
    (∀ h ∈ state.habits, h.id ≠ id → h ∈ (deleteHabit true id state).habits) ∧
    (deleteHabit true id state).logs = state.logs ∧
    (deleteHabit true id state).moods = state.moods ∧
    deleteHabit false id state = state := by
  refine ⟨rfl, ?_, ?_, ?_, rfl, rfl, rfl⟩
  · intro h hh
    simp only [deleteHabit, if_true, List.mem_filter, decide_eq_true_eq] at hh
    exact hh.2
  · simp only [deleteHabit, if_true]
    exact List.filter_sublist _
  · intro h hh hne
    simp only [deleteHabit, if_true, List.mem_filter, decide_eq_true_eq]
    exact ⟨hh, hne⟩

/-! ## C22: recording a mood -/

/-- C22: `setMood(date, mood)` makes `mood` the mood of `date` whatever was recorded
before, leaves the mood of every other day unchanged, and a second `setMood` on the same
day makes the first one without effect. -/
theorem setMood_overwrites (moods : MoodLog) (date : Int) (mood : String) :
    (setMood date mood moods).get? date = some mood ∧
    (∀ d, d ≠ date → (setMood date mood moods).get? d = moods.get? d) ∧
    (∀ mood1, setMood date mood (setMood date mood1 moods) = setMood date mood moods) := by
  refine ⟨Obj.get?_set_self moods date mood, ?_, ?_⟩
  · intro d hd
    exact Obj.get?_set_other moods date d mood hd
  · intro mood1
    exact Obj.set_set moods date mood1 mood

/-! ## C23 and C24: loading the persisted state -/

/-- C23: for every decoder and storage, a field whose stored value is absent, whose read
throws or whose text cannot be parsed loads as the supplied default, which is the seed
habits for the habits and the empty object for the logs and the moods; the loader is a
total function; and `safeHabits` is the loaded list when the loaded value is a list and
the empty list otherwise. -/
theorem load_fails_soft (parse : String → Option Json) (storage : String → StorageRead) :
    (∀ (defaultValue : Json) (key : String),
      (storage key = StorageRead.absent ∨ storage key = StorageRead.throws ∨
        ∃ text, storage key = StorageRead.text text ∧ parse text = none) →
      useStickyState parse storage defaultValue key = defaultValue) ∧
    (load parse storage).habits
      = useStickyState parse storage seedHabitsJson "habitflow-habits" ∧
    (load parse storage).logs = useStickyState parse storage (Json.obj []) "habitflow-logs" ∧
    (load parse storage).moods
      = useStickyState parse storage (Json.obj []) "habitflow-moods" ∧
    (∀ items : List Json, safeHabits (Json.arr items) = items) ∧
    (∀ habits : Json, (∀ items, habits ≠ Json.arr items) → safeHabits habits = []) := by
  refine ⟨?_, rfl, rfl, rfl, fun _ => rfl, ?_⟩
  · intro defaultValue key h
    unfold useStickyState
    rcases h with h | h | ⟨text, h, hp⟩
    · rw [h]
    · rw [h]
    · rw [h]
      simp only [hp]
  · intro habits hnot
    cases habits with
    | arr items => exact absurd rfl (hnot items)
    | null => rfl
    | bool b => rfl
    | num n => rfl
    | str s => rfl
    | obj fields => rfl

/-- C23 on a storage without habits, with an unparsable log text and a mood read that
throws: the load gives the seed habits, the empty log and the empty mood log. -/
theorem load_fails_soft_witness :
    (load parseSample brokenStorage).habits = seedHabitsJson ∧
    (load parseSample brokenStorage).logs = Json.obj [] ∧
    (load parseSample brokenStorage).moods = Json.obj [] ∧
    safeHabits (load parseSample brokenStorage).habits
      = seedHabits.map (fun h =>
          Json.obj [("id", Json.num h.id), ("name", Json.str h.name),
            ("color", Json.str h.color)]) :=
  ⟨((load_fails_soft parseSample brokenStorage).1 seedHabitsJson "habitflow-habits"
      (Or.inl rfl)),
    ((load_fails_soft parseSample brokenStorage).1 (Json.obj []) "habitflow-logs"
      (Or.inr (Or.inr ⟨"\x7b", rfl, rfl⟩))),
    ((load_fails_soft parseSample brokenStorage).1 (Json.obj []) "habitflow-moods"
      (Or.inr (Or.inl rfl))),
    rfl⟩

/-- C24 (the code departs from the claim): when the stored text of the completion log is
`null`, the loaded log is `null`, not the empty object, and both the streak engine's
`Object.keys(logs)` and the dashboard's `logs[dateKey]` throw a `TypeError`. -/
theorem null_logs_are_kept :
    (load parseSample nullLogsStorage).logs = Json.null ∧
    objectKeys (load parseSample nullLogsStorage).logs
      = Except.error "TypeError: Cannot convert undefined or null to object" ∧
    getProperty (load parseSample nullLogsStorage).logs "2024-03-01"
      = Except.error "TypeError: Cannot read properties of null" :=
  ⟨rfl, rfl, rfl⟩

/-! ## C25: the day of the streak engine is the UTC day -/

/-- C25 (the code departs from the claim): two hours ahead of UTC at 2024-03-31T23:30Z the
local calendar day is 2024-04-01, the key under which the grid records a toggle of today,
but the key `todayKey` of the streak engine is 2024-03-31; with habit 1 checked on
2024-04-01 the current streak is 0. -/
theorem streak_today_is_utc_day :
    localDate (Zone.fixed 7200000) berlinNight = dateKey 2024 4 1 ∧
    isoDate berlinNight = dateKey 2024 3 31 ∧
    isChecked logsApril1 (localDate (Zone.fixed 7200000) berlinNight) morningJog.id = true ∧
    streakEntry (Zone.fixed 7200000) berlinNight logsApril1 morningJog
      = { current := 0, best := 1 } := by
  decide

/-- With no offset from UTC the two days agree at every time. -/
theorem localDate_utc (t : Int) : localDate (Zone.fixed 0) t = isoDate t := by
  simp [localDate, isoDate, Zone.fixed]

/-! ## C26: termination and size of the backward walk -/

/-- C26 (the code departs from the claim): in Berlin at 01:30 on 1 April 2024
(2024-03-31T23:30Z), with the habit checked on 2024-03-30 and 2024-03-31, the log has 2
date keys on which the habit is checked and the current streak is 3. -/
theorem current_streak_exceeds_completed_keys :
    (completedDates logsMarch30and31 morningJog.id).length = 2 ∧
    (streakEntry Zone.berlin2024 berlinNight logsMarch30and31 morningJog).current = 3 := by
  decide

/-- In a zone of constant offset the current streak is at most the number of date keys on
which the habit is checked. -/
theorem current_le_completed_keys_fixed (offset now : Int) (logs : Logs) (id : HabitId) :
    currentStreak (Zone.fixed offset) now logs id ≤ (completedDates logs id).length := by
  have hbound : ∀ (s : Int) (r : Nat), IsRun logs id s r →
      r ≤ (completedDates logs id).length := by
    intro s r hrun
    have hnd : ((List.range r).map (fun (i : Nat) => s + (i : Int))).Nodup := by
      apply List.Nodup.map _ (List.nodup_range r)
      intro a b hab
      simp only at hab
      omega
    have hsub : (List.range r).map (fun (i : Nat) => s + (i : Int)) ⊆ completedDates logs id := by
      intro x hx
      obtain ⟨i, hi, rfl⟩ := List.mem_map.mp hx
      exact mem_completedDates.mpr (hrun i (List.mem_range.mp hi))
    have := (List.subperm_of_subset hnd hsub).length_le
    simpa using this
  unfold currentStreak
  simp only []
  split_ifs
  · exact Nat.zero_le _
  · obtain ⟨r, hr, hrun⟩ := walkBack_fixed_isRun offset logs id
      (walkBound logs (setDateBack (Zone.fixed offset) now))
      (setDateBack (Zone.fixed offset) now) 0
    rw [hr, Nat.zero_add]
    exact hbound _ _ hrun
  · obtain ⟨r, hr, hrun⟩ := walkBack_fixed_isRun offset logs id (walkBound logs now) now 0
    rw [hr, Nat.zero_add]
    exact hbound _ _ hrun

end HabitFlow
